import Mathlib

/-!
# inproc: in-process connections

A shallow embedding of `inproc.go` (package `inproc`): the process-wide
listener registry, `Listen`, `listener.Accept`, `listener.Close`, `Dial` and the
`conn` wrapper, together with the properties of the rendezvous protocol.

Go pointers (`*conn`, `*accepter`, `*listener`, pipe ends) are indices into
append-only heaps held in `State`.  A call that can block is split at its blocking
point; a step that is not enabled yields `Outcome.block`.
-/

namespace Inproc

/-! ## Data model -/

/-- One byte of a Go `[]byte`. -/
abbrev Byte := Fin 256

/-- A Go `error` value built by `errors.New`, identified by its message. -/
abbrev error := String

/-- A `time.Time` value, as nanoseconds; no function of the package inspects it. -/
abbrev Time := Int

/-- The constant `network`. -/
def network : String := "inproc"

/-- The struct `addr`. -/
structure addr where
  network : String
  address : String
deriving DecidableEq, Repr

/-- The method `addr.Network`. -/
def addr.Network (a : addr) : String := a.network

/-- The method `addr.String`. -/
def addr.String (a : addr) : String := a.address

/-- The zero value of `addr`. -/
def addr.zero : addr := ⟨"", ""⟩

/-- Modelled from the spec: the DuplexPipe primitive (`io.Pipe` of the Go standard
library, an external collaborator).  A synchronous, unbuffered, unidirectional byte
channel: `wr` holds the byte slices of the `Write` calls that are in progress, oldest
first (the head is the one being served), `served` counts the `Write` calls whose bytes
were consumed entirely, `rclosed` and `wclosed` record which half was closed. -/
structure pipe where
  wr : List (List Byte)
  served : Nat
  rclosed : Bool
  wclosed : Bool
deriving DecidableEq, Repr

/-- The struct `conn`; `r` and `w` are pipe ends (`none` is the nil interface). -/
structure conn where
  r : Option Nat
  w : Option Nat
  laddr : addr
  raddr : addr
deriving DecidableEq, Repr

/-- The struct `accepter`: the embedded `*conn`, the read end `reader` of the pipe made
by `Accept`, and whether the channel `done` has been closed. -/
structure accepter where
  conn : Nat
  reader : Nat
  done : Bool
deriving DecidableEq, Repr

/-- The struct `listener`: `accepters` is the slice of pending `*accepter`, `done` says
whether the channel `done` has been closed, `closed` is the `int32` flag. -/
structure listener where
  laddr : addr
  accepters : List Nat
  done : Bool
  closed : Nat
deriving DecidableEq, Repr

/-- The program state: the heaps of pipes, conns, accepters and listeners, and the
map `inprocs.listeners` as an association list. -/
structure State where
  pipes : List pipe
  conns : List conn
  accepterObjs : List accepter
  listenerObjs : List listener
  listeners : List (addr × Nat)
deriving DecidableEq, Repr

/-- The state after `init`: an empty map and empty heaps. -/
def State.init : State := ⟨[], [], [], [], []⟩

/-- The result of a step that may block or panic. -/
inductive Outcome (σ α : Type) where
  | ret (v : α) (s : σ)
  | block
  | panic
deriving DecidableEq, Repr

/-! ## The map `inprocs.listeners` -/

/-- Map lookup `m[a]`. -/
def mapGet : List (addr × Nat) → addr → Option Nat
  | [], _ => none
  | (k, v) :: m, a => if k = a then some v else mapGet m a

/-- Builtin `delete(m, a)`. -/
def mapDelete (m : List (addr × Nat)) (a : addr) : List (addr × Nat) :=
  m.filter (fun kv => decide (kv.1 ≠ a))

/-- Map assignment `m[a] = l`. -/
def mapSet (m : List (addr × Nat)) (a : addr) (l : Nat) : List (addr × Nat) :=
  (a, l) :: mapDelete m a

/-! ## The pipe primitive -/

/-- The error `io.ErrClosedPipe`. -/
def ErrClosedPipe : error := "io: read/write on closed pipe"

/-- The error `io.EOF`. -/
def EOF : error := "EOF"

/-- Modelled from the spec: a fresh pipe as returned by `io.Pipe()`. -/
def pipe.fresh : pipe := ⟨[], 0, false, false⟩

/-- Modelled from the spec: whether either half of the pipe was closed. -/
def pipe.isClosed (p : pipe) : Bool := p.rclosed || p.wclosed

/-- Modelled from the spec: the error a read reports on a closed pipe. -/
def pipe.readCloseError (p : pipe) : error :=
  if !p.rclosed && p.wclosed then EOF else ErrClosedPipe

/-- Modelled from the spec: `PipeReader.Read` with a buffer of `n` bytes.  On a closed
pipe it fails at once; with no write in progress it blocks; otherwise it copies at most
`n` bytes of the write being served, which completes once all its bytes are gone. -/
def pipe.Read (p : pipe) (n : Nat) : Outcome pipe (List Byte × Option error) :=
  if p.isClosed then .ret ([], some p.readCloseError) p
  else match p.wr with
    | [] => .block
    | b :: rest =>
      let nr := min n b.length
      if (b.drop nr).isEmpty then
        .ret (b.take nr, none) { p with wr := rest, served := p.served + 1 }
      else
        .ret (b.take nr, none) { p with wr := b.drop nr :: rest }

/-- Modelled from the spec: the entry of `PipeWriter.Write(b)`.  On a closed pipe it
returns `(0, ErrClosedPipe)` at once (`Sum.inl`); otherwise the bytes are offered to the
reader and the call waits, holding the ticket returned in `Sum.inr`. -/
def pipe.Write (p : pipe) (b : List Byte) : (Nat × error) ⊕ (Nat × pipe) :=
  if p.isClosed then .inl (0, ErrClosedPipe)
  else .inr (p.served + p.wr.length, { p with wr := p.wr ++ [b] })

/-- Modelled from the spec: the return of a `PipeWriter.Write` call of `total` bytes
holding `ticket`: `(total, nil)` once its bytes were consumed, the count consumed so far
and `ErrClosedPipe` once the pipe is closed, and no return (`none`) before. -/
def pipe.WriteReturn (p : pipe) (ticket total : Nat) : Option (Nat × Option error) :=
  if ticket < p.served then some (total, none)
  else if p.isClosed then
    some (total - ((p.wr[ticket - p.served]?).getD []).length, some ErrClosedPipe)
  else none

/-- Modelled from the spec: `PipeWriter.Close`; it always returns nil. -/
def pipe.CloseWrite (p : pipe) : Option error × pipe :=
  (none, { p with wclosed := true })

/-- Modelled from the spec: `PipeReader.Close`; it always returns nil. -/
def pipe.CloseRead (p : pipe) : Option error × pipe :=
  (none, { p with rclosed := true })

/-- The call `io.Pipe()`: allocates a pipe; both ends carry its index. -/
def ioPipe (s : State) : Nat × State :=
  (s.pipes.length, { s with pipes := s.pipes ++ [pipe.fresh] })

/-- Closing the write end `w` in the heap of pipes (a no-op on a dangling index). -/
def closeWriteEnd (w : Nat) (s : State) : Option error × State :=
  match s.pipes[w]? with
  | some p => ((pipe.CloseWrite p).1, { s with pipes := s.pipes.set w (pipe.CloseWrite p).2 })
  | none => (none, s)

/-- Closing the read end `r` in the heap of pipes (a no-op on a dangling index). -/
def closeReadEnd (r : Nat) (s : State) : Option error × State :=
  match s.pipes[r]? with
  | some p => ((pipe.CloseRead p).1, { s with pipes := s.pipes.set r (pipe.CloseRead p).2 })
  | none => (none, s)

/-! ## The type `conn` -/

/-- The method `conn.Close`, over any state `σ` and any `Close` methods of the two ends:
`err` is the named result, assigned by each close that is performed. -/
def conn.CloseWith {σ : Type} (closeW closeR : Nat → σ → Option error × σ)
    (c : conn) (s : σ) : Option error × σ :=
  let r1 : Option error × σ :=
    match c.w with
    | some w => closeW w s
    | none => (none, s)
  match c.r with
  | some r => closeR r r1.2
  | none => r1

/-- The method `conn.Close` on the conn at index `c`, its ends being pipe ends. -/
def conn.Close (s : State) (c : Nat) : Outcome State (Option error) :=
  match s.conns[c]? with
  | none => .panic
  | some C =>
    .ret (conn.CloseWith closeWriteEnd closeReadEnd C s).1
      (conn.CloseWith closeWriteEnd closeReadEnd C s).2

/-- The method `conn.Read` with a buffer of `n` bytes: delegates to the read end. -/
def conn.Read (s : State) (c : Nat) (n : Nat) : Outcome State (List Byte × Option error) :=
  match s.conns[c]? with
  | none => .panic
  | some C =>
    match C.r with
    | none => .panic
    | some r =>
      match s.pipes[r]? with
      | none => .panic
      | some p =>
        match p.Read n with
        | .ret v p1 => .ret v { s with pipes := s.pipes.set r p1 }
        | .block => .block
        | .panic => .panic

/-- The entry of the method `conn.Write`: delegates to the write end.  The value is
either the immediate failure or the ticket of the write now in progress. -/
def conn.Write (s : State) (c : Nat) (b : List Byte) :
    Outcome State ((Nat × error) ⊕ Nat) :=
  match s.conns[c]? with
  | none => .panic
  | some C =>
    match C.w with
    | none => .panic
    | some w =>
      match s.pipes[w]? with
      | none => .panic
      | some p =>
        match p.Write b with
        | .inl e => .ret (.inl e) s
        | .inr (t, p1) => .ret (.inr t) { s with pipes := s.pipes.set w p1 }

/-- The return of a `conn.Write` call of `total` bytes holding `ticket`; `none` while
the call is still blocked. -/
def conn.WriteReturn (s : State) (c : Nat) (ticket total : Nat) :
    Option (Nat × Option error) :=
  match s.conns[c]? with
  | none => none
  | some C =>
    match C.w with
    | none => none
    | some w =>
      match s.pipes[w]? with
      | none => none
      | some p => p.WriteReturn ticket total

/-- The method `conn.LocalAddr`. -/
def conn.LocalAddr (c : conn) : addr := c.laddr

/-- The method `conn.RemoteAddr`. -/
def conn.RemoteAddr (c : conn) : addr := c.raddr

/-- The method `conn.SetDeadline`. -/
def conn.SetDeadline (s : State) (_c : Nat) (_t : Time) : Option error × State :=
  (some "not supported", s)

/-- The method `conn.SetReadDeadline`. -/
def conn.SetReadDeadline (s : State) (_c : Nat) (_t : Time) : Option error × State :=
  (some "not supported", s)

/-- The method `conn.SetWriteDeadline`. -/
def conn.SetWriteDeadline (s : State) (_c : Nat) (_t : Time) : Option error × State :=
  (some "not supported", s)

/-! ## Dial -/

/-- The locals of a `Dial` call past the lookup: its `conn`, the read end `r` of its own
pipe, and the listener `l` found in the map. -/
structure dialFrame where
  conn : Nat
  r : Nat
  l : Nat
deriving DecidableEq, Repr

/-- The entry of `Dial` up to the lookup in `inprocs.listeners` (under the read lock):
makes the pipe and the conn, then fails with "connection refused" when the address is
not in the map. -/
def dialStart (s : State) (address : String) : Except error dialFrame × State :=
  let raddr : addr := { network := network, address := address }
  let (p, s1) := ioPipe s
  let c := s1.conns.length
  let s2 : State :=
    { s1 with conns := s1.conns ++ [{ r := none, w := some p, laddr := raddr, raddr := addr.zero }] }
  match mapGet s2.listeners raddr with
  | none => (.error "connection refused", s2)
  | some l => (.ok { conn := c, r := p, l := l }, s2)

/-- The body of the loop of `Dial`, run holding `l.locker`: with a pending accepter it
takes the one at index `len - 1` and truncates the slice to `[:len - 1]`; with none it
waits on the condition variable (`Outcome.block`). -/
def dialPop (s : State) (l : Nat) : Outcome State Nat :=
  match s.listenerObjs[l]? with
  | none => .panic
  | some L =>
    if 0 < L.accepters.length then
      match L.accepters[L.accepters.length - 1]? with
      | none => .panic
      | some a =>
        .ret a { s with listenerObjs :=
          s.listenerObjs.set l { L with accepters := L.accepters.take (L.accepters.length - 1) } }
    else .block

/-- The tail of `Dial` after the lock is released: the four assignments that wire the
two conns, then `close(accepter.done)` (closing a closed channel panics). -/
def dialWire (s : State) (f : dialFrame) (a : Nat) : Outcome State Nat :=
  match s.accepterObjs[a]?, s.conns[f.conn]? with
  | some A, some C =>
    -- conn.r = accepter.reader; conn.raddr = conn.laddr
    let C1 : conn := { C with r := some A.reader, raddr := C.laddr }
    let s1 : State := { s with conns := s.conns.set f.conn C1 }
    match s1.conns[A.conn]? with
    | none => .panic
    | some AC =>
      -- accepter.conn.r = r; accepter.conn.raddr = conn.laddr
      let AC1 : conn := { AC with r := some f.r, raddr := C1.laddr }
      let s2 : State := { s1 with conns := s1.conns.set A.conn AC1 }
      if A.done then .panic
      else .ret f.conn { s2 with accepterObjs := s2.accepterObjs.set a { A with done := true } }
  | _, _ => .panic

/-- The function `Dial`, run without interruption: `Outcome.block` when it has to wait
for an accepter. -/
def Dial (s : State) (address : String) : Outcome State (Except error Nat) :=
  match dialStart s address with
  | (.error e, s1) => .ret (.error e) s1
  | (.ok f, s1) =>
    match dialPop s1 f.l with
    | .block => .block
    | .panic => .panic
    | .ret a s2 =>
      match dialWire s2 f a with
      | .block => .block
      | .panic => .panic
      | .ret c s3 => .ret (.ok c) s3

/-! ## Listen, Accept, Close -/

/-- The function `Listen`: allocates the listener, then under the write lock fails with
"address already in use" when the address is in the map and registers it otherwise. -/
def Listen (s : State) (address : String) : Except error Nat × State :=
  let laddr : addr := { network := network, address := address }
  let l := s.listenerObjs.length
  let s1 : State :=
    { s with listenerObjs :=
        s.listenerObjs ++ [{ laddr := laddr, accepters := [], done := false, closed := 0 }] }
  match mapGet s1.listeners laddr with
  | some _ => (.error "address already in use", s1)
  | none => (.ok l, { s1 with listeners := mapSet s1.listeners laddr l })

/-- The entry of `listener.Accept` up to the `select`: makes the pipe and the accepter
with its half-built conn, and appends it to `l.accepters` holding `l.locker`.  Returns
the new accepter. -/
def acceptStart (s : State) (l : Nat) : Outcome State Nat :=
  match s.listenerObjs[l]? with
  | none => .panic
  | some L =>
    let (p, s1) := ioPipe s
    let c := s1.conns.length
    let s2 : State :=
      { s1 with conns := s1.conns ++ [{ r := none, w := some p, laddr := L.laddr, raddr := addr.zero }] }
    let a := s2.accepterObjs.length
    let s3 : State :=
      { s2 with accepterObjs := s2.accepterObjs ++ [{ conn := c, reader := p, done := false }] }
    .ret a { s3 with listenerObjs :=
      s3.listenerObjs.set l { L with accepters := L.accepters ++ [a] } }

/-- The `select` of `listener.Accept` for the accepter `a`: the list of results it may
return in this state (Go picks any ready case); the empty list means it blocks. -/
def acceptSelect (s : State) (l a : Nat) : List (Except error Nat) :=
  match s.listenerObjs[l]?, s.accepterObjs[a]? with
  | some L, some A =>
    (if A.done then [Except.ok A.conn] else []) ++
    (if L.done then [Except.error "use of closed network connection"] else [])
  | _, _ => []

/-- The method `accepter.Close`, promoted from the embedded `*conn`. -/
def accepter.Close (s : State) (a : Nat) : Outcome State (Option error) :=
  match s.accepterObjs[a]? with
  | none => .panic
  | some A => conn.Close s A.conn

/-- The loop `for _, accepter := range accepters { accepter.Close() }`. -/
def closeAccepters : State → List Nat → Outcome State Unit
  | s, [] => .ret () s
  | s, a :: rest =>
    match accepter.Close s a with
    | .ret _ s1 => closeAccepters s1 rest
    | .block => .block
    | .panic => .panic

/-- The method `listener.Close`. -/
def listener.Close (s : State) (l : Nat) : Outcome State (Option error) :=
  match s.listenerObjs[l]? with
  | none => .panic
  | some L =>
    -- if atomic.CompareAndSwapInt32(&l.closed, 0, 1) { close(l.done) }
    if L.closed = 0 ∧ L.done = true then .panic
    else
      let L1 : listener := if L.closed = 0 then { L with closed := 1, done := true } else L
      -- delete(inprocs.listeners, l.laddr)
      let m := mapDelete s.listeners L1.laddr
      -- accepters := l.accepters; l.accepters = nil
      let accepters := L1.accepters
      let L2 : listener := { L1 with accepters := [] }
      let s1 : State := { s with listeners := m, listenerObjs := s.listenerObjs.set l L2 }
      match closeAccepters s1 accepters with
      | .ret _ s2 => .ret none s2
      | .block => .block
      | .panic => .panic

/-- The method `listener.Addr`. -/
def listener.Addr (L : listener) : addr := L.laddr

/-! ## Rules stated by the specification -/

/-- The rule the specification states for the result of `conn.Close`: the last non-nil
error among `ew` (closing the write end) and `er` (closing the read end). -/
def lastNonNil (ew er : Option error) : Option error :=
  match er with
  | some e => some e
  | none => ew

/-! ## Runs of I/O calls on a pair of conns -/

/-- One I/O call on a pair of conns: a `Write` of the bytes `b` on the writing conn, or
a `Read` with a buffer of `n` bytes on the reading conn. -/
inductive IOop where
  | write (b : List Byte)
  | read (n : Nat)
deriving DecidableEq, Repr

/-- The record of a run: the state reached, the bytes of the `Write` calls taken by
the pipe, in order, and the bytes returned by the `Read` calls, in order. -/
structure IOtrace where
  st : State
  written : List Byte
  delivered : List Byte
deriving DecidableEq, Repr

/-- One call of a run, on the writing conn `wc` or the reading conn `rc`.  A `Read` that
blocks and a `Write` refused by a closed pipe leave the record as it is. -/
def ioStep (wc rc : Nat) (t : IOtrace) : IOop → IOtrace
  | .write b =>
    match conn.Write t.st wc b with
    | .ret (.inr _) s1 => { st := s1, written := t.written ++ b, delivered := t.delivered }
    | _ => t
  | .read n =>
    match conn.Read t.st rc n with
    | .ret v s1 => { st := s1, written := t.written, delivered := t.delivered ++ v.1 }
    | _ => t

/-- A run of I/O calls from the state `s`. -/
def ioRun (wc rc : Nat) (s : State) (ops : List IOop) : IOtrace :=
  ops.foldl (ioStep wc rc) ⟨s, [], []⟩

/-! ## The states of the test scenario -/

/-- The bytes of the string "Hello World" of `TestINPROC`. -/
def helloWorld : List Byte := [72, 101, 108, 108, 111, 32, 87, 111, 114, 108, 100]

/-- The state of `TestINPROC` once `Listen(":9999")` has returned and one `Accept` is
pending on the listener. -/
def pendingState : State :=
  { pipes := [pipe.fresh],
    conns := [⟨none, some 0, ⟨network, ":9999"⟩, addr.zero⟩],
    accepterObjs := [⟨0, 0, false⟩],
    listenerObjs := [⟨⟨network, ":9999"⟩, [0], false, 0⟩],
    listeners := [(⟨network, ":9999"⟩, 0)] }

/-- The state with a second `Accept` pending on the listener of `pendingState`. -/
def pendingState2 : State :=
  { pipes := [pipe.fresh, pipe.fresh],
    conns := [⟨none, some 0, ⟨network, ":9999"⟩, addr.zero⟩,
      ⟨none, some 1, ⟨network, ":9999"⟩, addr.zero⟩],
    accepterObjs := [⟨0, 0, false⟩, ⟨1, 1, false⟩],
    listenerObjs := [⟨⟨network, ":9999"⟩, [0, 1], false, 0⟩],
    listeners := [(⟨network, ":9999"⟩, 0)] }

/-! ## Concurrent calls -/

/-- Where a `Dial` call stands: at its entry; past the lookup, in the loop under
`l.locker`; past the loop, holding the accepter it took; returned; or panicked. -/
inductive dialPC where
  | start (address : String)
  | locked (f : dialFrame)
  | popped (f : dialFrame) (a : Nat)
  | returned (res : Except error Nat)
  | crashed

/-- Where an `Accept` call stands: at its entry; in the `select`, its accepter `a`
enqueued on the listener `l`; returned; or panicked. -/
inductive acceptPC where
  | start (l : Nat)
  | waiting (l a : Nat)
  | returned (res : Except error Nat)
  | crashed

/-- The program with its calls in progress.  `pops` and `fires` are history: the pairs
(Dial call, accepter) of the pops made so far, and the accepters whose `done` channel a
Dial has closed, both in order. -/
structure Sys where
  st : State
  dials : List dialPC
  accepts : List acceptPC
  pops : List (Nat × Nat)
  fires : List Nat

/-- A scheduling choice: the Dial call `i` or the Accept call `j` takes its next atomic
step; `k` says which ready case its `select` takes. -/
inductive Act where
  | dial (i : Nat)
  | accept (j : Nat) (k : Nat)
deriving DecidableEq, Repr

/-- One atomic step of the scheduled call; a call that is blocked, has returned or does
not exist leaves the system as it is. -/
def Sys.step (y : Sys) : Act → Sys
  | .dial i =>
    match y.dials[i]? with
    | some (.start address) =>
      match dialStart y.st address with
      | (.error e, s1) => { y with st := s1, dials := y.dials.set i (.returned (.error e)) }
      | (.ok f, s1) => { y with st := s1, dials := y.dials.set i (.locked f) }
    | some (.locked f) =>
      match dialPop y.st f.l with
      | .ret a s1 =>
        { y with st := s1, dials := y.dials.set i (.popped f a), pops := y.pops ++ [(i, a)] }
      | .block => y
      | .panic => { y with dials := y.dials.set i .crashed }
    | some (.popped f a) =>
      match dialWire y.st f a with
      | .ret c s1 =>
        { y with st := s1, dials := y.dials.set i (.returned (.ok c)), fires := y.fires ++ [a] }
      | .block => y
      | .panic => { y with dials := y.dials.set i .crashed }
    | _ => y
  | .accept j k =>
    match y.accepts[j]? with
    | some (.start l) =>
      match acceptStart y.st l with
      | .ret a s1 => { y with st := s1, accepts := y.accepts.set j (.waiting l a) }
      | .block => y
      | .panic => { y with accepts := y.accepts.set j .crashed }
    | some (.waiting l a) =>
      match (acceptSelect y.st l a)[k]? with
      | some res => { y with accepts := y.accepts.set j (.returned res) }
      | none => y
    | _ => y

/-- The system after a schedule. -/
def Sys.run (y : Sys) (sched : List Act) : Sys :=
  sched.foldl Sys.step y

/-- How far a Dial call has got: 0 at its entry, 1 in the loop, 2 once it has taken an
accepter, 3 once it has returned. -/
def dialPC.rank : dialPC → Nat
  | .start _ => 0
  | .locked _ => 1
  | .popped _ _ => 2
  | .returned _ => 3
  | .crashed => 3

/-- The system in which `n` calls `Dial(address)` are at their entry and one `Accept`
call is blocked in its `select` for each accepter of the queue `q` of the listener `l`. -/
def Sys.dialing (s : State) (address : String) (n l : Nat) (q : List Nat) : Sys :=
  { st := s,
    dials := List.replicate n (.start address),
    accepts := q.map (fun a => acceptPC.waiting l a),
    pops := [],
    fires := [] }

/-! ## Predicates on states and systems -/

/-- The conn `wc` writes to the pipe `p`, the conn `rc` reads from it, and the bytes
delivered so far followed by the bytes in flight are the bytes written so far. -/
structure Linked (wc rc p : Nat) (t : IOtrace) : Prop where
  hw : ∃ W, t.st.conns[wc]? = some W ∧ W.w = some p
  hr : ∃ R, t.st.conns[rc]? = some R ∧ R.r = some p
  hp : ∃ P, t.st.pipes[p]? = some P ∧ t.delivered ++ P.wr.flatten = t.written

/-- The state `s'` differs from `s` at most by pipe halves that were closed. -/
structure ClosedMore (s s' : State) : Prop where
  conns : s'.conns = s.conns
  accepterObjs : s'.accepterObjs = s.accepterObjs
  listenerObjs : s'.listenerObjs = s.listenerObjs
  listeners : s'.listeners = s.listeners
  pipes : ∀ (p : Nat) (P : pipe), s.pipes[p]? = some P →
    ∃ P' : pipe, s'.pipes[p]? = some P' ∧ (P.wclosed = true → P'.wclosed = true)

/-- The invariant of the system: the registry and the queues hold allocated objects,
an accepter sits in at most one queue and at most once, queued accepters were never
popped and their `done` channel is open, and the history agrees with the calls. -/
structure Inv (y : Sys) : Prop where
  reg : ∀ (k : addr) (l : Nat), mapGet y.st.listeners k = some l → l < y.st.listenerObjs.length
  qv : ∀ (l : Nat) (L : listener) (a : Nat), y.st.listenerObjs[l]? = some L → a ∈ L.accepters →
    ∃ A : accepter, y.st.accepterObjs[a]? = some A ∧ A.done = false ∧
      A.conn < y.st.conns.length
  qnd : ∀ (l : Nat) (L : listener), y.st.listenerObjs[l]? = some L → L.accepters.Nodup
  qdj : ∀ (l l' : Nat) (L L' : listener) (a : Nat), l ≠ l' → y.st.listenerObjs[l]? = some L →
    y.st.listenerObjs[l']? = some L' → a ∈ L.accepters → a ∉ L'.accepters
  qp : ∀ (l : Nat) (L : listener) (a : Nat), y.st.listenerObjs[l]? = some L → a ∈ L.accepters →
    a ∉ y.pops.map Prod.snd
  pnd : (y.pops.map Prod.snd).Nodup
  pv : ∀ a ∈ y.pops.map Prod.snd, a < y.st.accepterObjs.length
  lk : ∀ (i : Nat) (f : dialFrame), y.dials[i]? = some (.locked f) →
    f.conn < y.st.conns.length ∧ f.l < y.st.listenerObjs.length
  pp : ∀ (i : Nat) (f : dialFrame) (a : Nat), y.dials[i]? = some (.popped f a) →
    (i, a) ∈ y.pops ∧ f.conn < y.st.conns.length ∧
      ∃ A : accepter, y.st.accepterObjs[a]? = some A ∧ A.done = false ∧
        A.conn < y.st.conns.length
  fd : ∀ a ∈ y.fires, (∃ A : accepter, y.st.accepterObjs[a]? = some A ∧ A.done = true) ∧
    a ∈ y.pops.map Prod.snd
  fnd : y.fires.Nodup
  nc : ∀ i : Nat, y.dials[i]? ≠ some .crashed

/-- The part of the invariant that concerns the state alone: the registry and the queues
hold allocated objects, and an accepter sits in at most one queue, at most once, its
`done` channel open. -/
structure WFState (s : State) : Prop where
  reg : ∀ (k : addr) (l : Nat), mapGet s.listeners k = some l → l < s.listenerObjs.length
  qv : ∀ (l : Nat) (L : listener) (a : Nat), s.listenerObjs[l]? = some L → a ∈ L.accepters →
    ∃ A : accepter, s.accepterObjs[a]? = some A ∧ A.done = false ∧ A.conn < s.conns.length
  qnd : ∀ (l : Nat) (L : listener), s.listenerObjs[l]? = some L → L.accepters.Nodup
  qdj : ∀ (l l' : Nat) (L L' : listener) (a : Nat), l ≠ l' → s.listenerObjs[l]? = some L →
    s.listenerObjs[l']? = some L' → a ∈ L.accepters → a ∉ L'.accepters

/-- How far the Dial call `i` of a system has got (3 when there is no such call). -/
def Sys.rank (y : Sys) (i : Nat) : Nat :=
  match y.dials[i]? with
  | some pc => pc.rank
  | none => 3

/-- The invariant of a system in which every Dial call goes to `address`, where the
listener `l` is registered, no Accept call is at its entry, and the queue of `l` was `q0`
when the Dial calls began: the queue followed by the popped accepters, latest first, is
`q0`, and the history of pops agrees with the progress of the calls. -/
structure Inv2 (address : String) (l : Nat) (q0 : List Nat) (y : Sys) : Prop where
  inv : Inv y
  reg : mapGet y.st.listeners ⟨network, address⟩ = some l
  len : y.dials.length = q0.length
  pcs : ∀ (i : Nat) (pc : dialPC), y.dials[i]? = some pc →
    pc = .start address ∨ (∃ f : dialFrame, pc = .locked f ∧ f.l = l) ∨
      (∃ (f : dialFrame) (a : Nat), pc = .popped f a) ∨ ∃ c : Nat, pc = .returned (.ok c)
  acc : ∀ (j l' : Nat), y.accepts[j]? ≠ some (.start l')
  queue : ∃ Lc : listener, y.st.listenerObjs[l]? = some Lc ∧
    Lc.accepters ++ (y.pops.map Prod.snd).reverse = q0
  pfnd : (y.pops.map Prod.fst).Nodup
  pfr : ∀ (i a : Nat), (i, a) ∈ y.pops →
    (a ∈ y.fires ∧ ∃ c : Nat, y.dials[i]? = some (.returned (.ok c))) ∨
      ∃ f : dialFrame, y.dials[i]? = some (.popped f a)
  rpf : ∀ (i c : Nat), y.dials[i]? = some (.returned (.ok c)) → ∃ a : Nat, (i, a) ∈ y.pops

/-- The `closed` flag of every listener is set exactly when its `done` channel has been
closed. -/
def FlagInv (s : State) : Prop :=
  ∀ (l : Nat) (L : listener), s.listenerObjs[l]? = some L → (L.closed = 0 ↔ L.done = false)

/-- Every accepter is allocated with a conn and a pipe of its own, and every accepter
still in a queue is as `Accept` built it: its conn holds the write end of the pipe whose
read end is `reader`, has no read end yet and carries the listener's address, and that
pipe is open with no write in progress. -/
structure AcceptBuilt (s : State) : Prop where
  alloc : ∀ (a : Nat) (A : accepter), s.accepterObjs[a]? = some A →
    A.conn < s.conns.length ∧ A.reader < s.pipes.length
  inj : ∀ (a a' : Nat) (A A' : accepter), s.accepterObjs[a]? = some A →
    s.accepterObjs[a']? = some A' → a ≠ a' → A.conn ≠ A'.conn
  built : ∀ (l : Nat) (L : listener) (a : Nat) (A : accepter), s.listenerObjs[l]? = some L →
    a ∈ L.accepters → s.accepterObjs[a]? = some A →
    (∃ AC : conn, s.conns[A.conn]? = some AC ∧ AC.w = some A.reader ∧ AC.r = none ∧
      AC.laddr = L.laddr) ∧
    ∃ P : pipe, s.pipes[A.reader]? = some P ∧ P.isClosed = false ∧ P.wr = []

/-- The invariant `Inv` together with `AcceptBuilt` for the state, and the fact that
the conn of a Dial call in progress is not the conn of any accepter. -/
structure InvB (y : Sys) : Prop where
  inv : Inv y
  ab : AcceptBuilt y.st
  fr : ∀ (i : Nat) (f : dialFrame),
    (y.dials[i]? = some (.locked f) ∨ ∃ a : Nat, y.dials[i]? = some (.popped f a)) →
    ∀ (a : Nat) (A : accepter), y.st.accepterObjs[a]? = some A → A.conn ≠ f.conn

/-- The conns `cd` and `ca` of the state `s` carry a byte stream each way: `cd` writes
to the pipe `pd`, which `ca` reads, and `ca` writes to the pipe `pa`, which `cd` reads.
In every run of `Write` and `Read` calls the bytes read so far followed by the bytes in
flight are the bytes written so far, and one `Write` of `S` followed by `Read` calls
whose buffers add up to at least the length of `S` delivers exactly `S`. -/
structure Duplex (cd ca pd pa : Nat) (s : State) : Prop where
  fwd : ∀ ops : List IOop, ∃ Q : pipe, (ioRun cd ca s ops).st.pipes[pd]? = some Q ∧
    (ioRun cd ca s ops).delivered ++ Q.wr.flatten = (ioRun cd ca s ops).written
  bwd : ∀ ops : List IOop, ∃ Q : pipe, (ioRun ca cd s ops).st.pipes[pa]? = some Q ∧
    (ioRun ca cd s ops).delivered ++ Q.wr.flatten = (ioRun ca cd s ops).written
  fwdAll : ∀ (S : List Byte) (ns : List Nat), S.length ≤ ns.sum →
    (ioRun cd ca s (IOop.write S :: ns.map IOop.read)).delivered = S
  bwdAll : ∀ (S : List Byte) (ns : List Nat), S.length ≤ ns.sum →
    (ioRun ca cd s (IOop.write S :: ns.map IOop.read)).delivered = S

/-! ## Facts about the map -/

theorem mapDelete_cons_self (m : List (addr × Nat)) (a : addr) (v : Nat) :
    mapDelete ((a, v) :: m) a = mapDelete m a := by
  simp [mapDelete, List.filter_cons]

theorem mapDelete_cons_ne (m : List (addr × Nat)) (k a : addr) (v : Nat) (h : k ≠ a) :
    mapDelete ((k, v) :: m) a = (k, v) :: mapDelete m a := by
  simp [mapDelete, List.filter_cons, h]

theorem mapGet_cons_self (m : List (addr × Nat)) (a : addr) (v : Nat) :
    mapGet ((a, v) :: m) a = some v := by
  simp [mapGet]

theorem mapGet_cons_ne (m : List (addr × Nat)) (k a : addr) (v : Nat) (h : k ≠ a) :
    mapGet ((k, v) :: m) a = mapGet m a := by
  simp [mapGet, h]

theorem mapGet_mapDelete_self (m : List (addr × Nat)) (a : addr) :
    mapGet (mapDelete m a) a = none := by
  induction m with
  | nil => rfl
  | cons kv m ih =>
    obtain ⟨k, v⟩ := kv
    by_cases h : k = a
    · subst h
      rw [mapDelete_cons_self]; exact ih
    · rw [mapDelete_cons_ne _ _ _ _ h, mapGet_cons_ne _ _ _ _ h]; exact ih

theorem mapGet_mapDelete_ne (m : List (addr × Nat)) (a b : addr) (hab : b ≠ a) :
    mapGet (mapDelete m a) b = mapGet m b := by
  induction m with
  | nil => rfl
  | cons kv m ih =>
    obtain ⟨k, v⟩ := kv
    by_cases h : k = a
    · subst h
      rw [mapDelete_cons_self, mapGet_cons_ne _ _ _ _ (Ne.symm hab)]; exact ih
    · rw [mapDelete_cons_ne _ _ _ _ h]
      by_cases hkb : k = b
      · subst hkb
        rw [mapGet_cons_self, mapGet_cons_self]
      · rw [mapGet_cons_ne _ _ _ _ hkb, mapGet_cons_ne _ _ _ _ hkb]; exact ih

theorem mapDelete_of_absent (m : List (addr × Nat)) (a : addr) (h : mapGet m a = none) :
    mapDelete m a = m := by
  induction m with
  | nil => rfl
  | cons kv m ih =>
    obtain ⟨k, v⟩ := kv
    by_cases hk : k = a
    · subst hk
      rw [mapGet_cons_self] at h
      cases h
    · rw [mapGet_cons_ne _ _ _ _ hk] at h
      rw [mapDelete_cons_ne _ _ _ _ hk, ih h]

theorem mapGet_mapSet_self (m : List (addr × Nat)) (a : addr) (l : Nat) :
    mapGet (mapSet m a l) a = some l := by
  simp [mapSet, mapGet]

theorem mapGet_mapSet_ne (m : List (addr × Nat)) (a b : addr) (l : Nat) (hab : b ≠ a) :
    mapGet (mapSet m a l) b = mapGet m b := by
  unfold mapSet
  rw [mapGet_cons_ne _ _ _ _ (Ne.symm hab), mapGet_mapDelete_ne m a b hab]

/-! ## Dial -/

theorem dialStart_eq (s : State) (address : String) :
    dialStart s address =
      ((match mapGet s.listeners ⟨network, address⟩ with
        | none => Except.error "connection refused"
        | some l => Except.ok ⟨s.conns.length, s.pipes.length, l⟩),
       { s with
          pipes := s.pipes ++ [pipe.fresh],
          conns := s.conns ++ [⟨none, some s.pipes.length, ⟨network, address⟩, addr.zero⟩] }) := by
  unfold dialStart ioPipe
  cases h : mapGet s.listeners ⟨network, address⟩ <;> simp [h]

theorem dialPop_eq (s : State) (l : Nat) (L : listener) (hL : s.listenerObjs[l]? = some L) :
    dialPop s l =
      match L.accepters.getLast? with
      | none => Outcome.block
      | some a =>
        Outcome.ret a
          { s with
            listenerObjs := s.listenerObjs.set l { L with accepters := L.accepters.dropLast } } := by
  unfold dialPop
  rw [hL]
  simp only
  rcases List.eq_nil_or_concat L.accepters with h | ⟨q, a, h⟩
  · simp [h]
  · simp [h, List.getLast?_concat, List.dropLast_concat]

theorem Dial_eq_of_pending (s : State) (address : String) (l a : Nat)
    (L : listener) (A : accepter) (AC : conn)
    (hreg : mapGet s.listeners ⟨network, address⟩ = some l)
    (hL : s.listenerObjs[l]? = some L)
    (hq : L.accepters.getLast? = some a)
    (hA : s.accepterObjs[a]? = some A) (hdone : A.done = false)
    (hAC : s.conns[A.conn]? = some AC) :
    Dial s address = .ret (.ok s.conns.length)
      { pipes := s.pipes ++ [pipe.fresh],
        conns := (s.conns ++
            [conn.mk (some A.reader) (some s.pipes.length) ⟨network, address⟩ ⟨network, address⟩]).set
          A.conn { AC with r := some s.pipes.length, raddr := ⟨network, address⟩ },
        accepterObjs := s.accepterObjs.set a { A with done := true },
        listenerObjs := s.listenerObjs.set l { L with accepters := L.accepters.dropLast },
        listeners := s.listeners } := by
  have hlt : A.conn < s.conns.length := by
    rcases Nat.lt_or_ge A.conn s.conns.length with h | h
    · exact h
    · rw [List.getElem?_eq_none h] at hAC; cases hAC
  unfold Dial
  rw [dialStart_eq, hreg]
  simp only
  rw [dialPop_eq _ l L (by simpa using hL), hq]
  simp only
  unfold dialWire
  simp [hA, hdone, hAC, hlt, List.getElem?_append_left, List.getElem?_set, Nat.ne_of_gt hlt]

theorem Dial_block_of_empty (s : State) (address : String) (l : Nat) (L : listener)
    (hreg : mapGet s.listeners ⟨network, address⟩ = some l)
    (hL : s.listenerObjs[l]? = some L) (hq : L.accepters = []) :
    Dial s address = .block := by
  unfold Dial
  rw [dialStart_eq, hreg]
  simp only
  rw [dialPop_eq _ l L (by simpa using hL), hq]
  rfl

/-- C10: a Dial to the address of a listener whose pending queue `q` is non-empty is
matched with the last element of `q` (the accepter enqueued most recently): that
accepter's `done` channel is closed and its conn is wired to the dialer's pipe, and the
queue becomes `q` without its last element, the others in unchanged order; with an empty
queue the pop step blocks and Dial makes no match and waits. -/
theorem Dial_matches_last_enqueued (s : State) (address : String) (l : Nat) (L : listener)
    (hreg : mapGet s.listeners ⟨network, address⟩ = some l)
    (hL : s.listenerObjs[l]? = some L) :
    (L.accepters = [] → dialPop s l = .block ∧ Dial s address = .block) ∧
    (∀ hne : L.accepters ≠ [],
      dialPop s l = .ret (L.accepters.getLast hne)
        { s with
          listenerObjs := s.listenerObjs.set l { L with accepters := L.accepters.dropLast } } ∧
      L.accepters = L.accepters.dropLast ++ [L.accepters.getLast hne] ∧
      ∀ (A : accepter) (AC : conn),
        s.accepterObjs[L.accepters.getLast hne]? = some A → A.done = false →
        s.conns[A.conn]? = some AC →
        ∃ s', Dial s address = .ret (.ok s.conns.length) s' ∧
          s'.listenerObjs[l]? = some { L with accepters := L.accepters.dropLast } ∧
          (∀ k, k ≠ l → s'.listenerObjs[k]? = s.listenerObjs[k]?) ∧
          s'.accepterObjs[L.accepters.getLast hne]? = some { A with done := true } ∧
          (∀ b, b ≠ L.accepters.getLast hne → s'.accepterObjs[b]? = s.accepterObjs[b]?) ∧
          s'.conns[A.conn]? =
            some { AC with r := some s.pipes.length, raddr := ⟨network, address⟩ } ∧
          s'.conns[s.conns.length]? =
            some ⟨some A.reader, some s.pipes.length, ⟨network, address⟩, ⟨network, address⟩⟩) := by
  have hl : l < s.listenerObjs.length := by
    rcases Nat.lt_or_ge l s.listenerObjs.length with h | h
    · exact h
    · rw [List.getElem?_eq_none h] at hL; cases hL
  constructor
  · intro hq
    refine ⟨?_, Dial_block_of_empty s address l L hreg hL hq⟩
    rw [dialPop_eq s l L hL, hq]
    rfl
  · intro hne
    have hlast : L.accepters.getLast? = some (L.accepters.getLast hne) :=
      List.getLast?_eq_getLast _ hne
    refine ⟨?_, (List.dropLast_append_getLast hne).symm, ?_⟩
    · rw [dialPop_eq s l L hL, hlast]
    · intro A AC hA hdone hAC
      have ha : L.accepters.getLast hne < s.accepterObjs.length := by
        rcases Nat.lt_or_ge (L.accepters.getLast hne) s.accepterObjs.length with h | h
        · exact h
        · rw [List.getElem?_eq_none h] at hA; cases hA
      have hc : A.conn < s.conns.length := by
        rcases Nat.lt_or_ge A.conn s.conns.length with h | h
        · exact h
        · rw [List.getElem?_eq_none h] at hAC; cases hAC
      refine ⟨_, Dial_eq_of_pending s address l _ L A AC hreg hL hlast hA hdone hAC, ?_⟩
      refine ⟨?_, ?_, ?_, ?_, ?_, ?_⟩
      · simp [List.getElem?_set, hl]
      · intro k hk
        simp [List.getElem?_set, Ne.symm hk]
      · simp [List.getElem?_set, ha]
      · intro b hb
        simp [List.getElem?_set, Ne.symm hb]
      · rw [List.getElem?_set]
        simp [hc, Nat.lt_succ_of_lt hc]
      · simp [List.getElem?_set, Nat.ne_of_lt hc, List.getElem?_append_right]

/-- Witness for C10 at the state reached by `Listen(":9999")` and two `Accept` calls:
the pop takes accepter 1, enqueued last, and leaves accepter 0 in the queue. -/
theorem Dial_matches_last_enqueued_witness :
    dialPop pendingState2 0 =
      .ret 1 { pendingState2 with listenerObjs := [⟨⟨network, ":9999"⟩, [0], false, 0⟩] } :=
  ((Dial_matches_last_enqueued pendingState2 ":9999" 0 ⟨⟨network, ":9999"⟩, [0, 1], false, 0⟩
      (by decide) (by decide)).2 (by decide)).1

/-! ## Dial on an unregistered address, Listen, deadlines, conn.Close -/

/-- C2: for every registry state and every address with no Listener registered, `Dial`
fails with the "connection refused" error, returns no Conn, and leaves the registry (and
every listener and accepter) unchanged. -/
theorem Dial_refused_of_unregistered (s : State) (address : String)
    (h : mapGet s.listeners ⟨network, address⟩ = none) :
    ∃ s', Dial s address = .ret (.error "connection refused") s' ∧
      s'.listeners = s.listeners ∧ s'.listenerObjs = s.listenerObjs ∧
      s'.accepterObjs = s.accepterObjs := by
  refine ⟨{ s with
      pipes := s.pipes ++ [pipe.fresh],
      conns := s.conns ++ [⟨none, some s.pipes.length, ⟨network, address⟩, addr.zero⟩] },
    ?_, rfl, rfl, rfl⟩
  unfold Dial
  rw [dialStart_eq, h]

/-- Witness for C2: the first `Dial(":9999")` of `TestINPROC`, before any `Listen`. -/
theorem Dial_refused_of_unregistered_witness :
    mapGet State.init.listeners ⟨network, ":9999"⟩ = none ∧
    ∃ s', Dial State.init ":9999" = .ret (.error "connection refused") s' ∧
      s'.listeners = State.init.listeners ∧ s'.listenerObjs = State.init.listenerObjs ∧
      s'.accepterObjs = State.init.accepterObjs :=
  ⟨by decide, Dial_refused_of_unregistered State.init ":9999" (by decide)⟩

theorem Listen_eq (s : State) (address : String) :
    Listen s address =
      match mapGet s.listeners ⟨network, address⟩ with
      | some _ =>
        (Except.error "address already in use",
          { s with listenerObjs := s.listenerObjs ++ [⟨⟨network, address⟩, [], false, 0⟩] })
      | none =>
        (Except.ok s.listenerObjs.length,
          { s with
            listenerObjs := s.listenerObjs ++ [⟨⟨network, address⟩, [], false, 0⟩],
            listeners := mapSet s.listeners ⟨network, address⟩ s.listenerObjs.length }) := by
  unfold Listen
  cases h : mapGet s.listeners ⟨network, address⟩ <;> simp [h]

theorem listener_Close_fresh (s : State) (l : Nat) (a : addr)
    (hL : s.listenerObjs[l]? = some ⟨a, [], false, 0⟩) :
    listener.Close s l = .ret none
      { s with
        listeners := mapDelete s.listeners a,
        listenerObjs := s.listenerObjs.set l ⟨a, [], true, 1⟩ } := by
  unfold listener.Close
  rw [hL]
  simp [closeAccepters]

/-- C3: `Listen` fails with "address already in use" exactly when the address is already
registered, and then returns no Listener and leaves the registry unchanged (the address
still maps to the first Listener); otherwise it succeeds and registers a new Listener
under that address.  `Listen`, `Listen` on one address fails the second time, and
`Listen`, `Close`, `Listen` succeeds the second time. -/
theorem Listen_address_in_use_iff (s : State) (address : String) :
    ((Listen s address).1 = .error "address already in use" ↔
      mapGet s.listeners ⟨network, address⟩ ≠ none) ∧
    (∀ l0, mapGet s.listeners ⟨network, address⟩ = some l0 →
      (Listen s address).1 = .error "address already in use" ∧
      (Listen s address).2.listeners = s.listeners ∧
      mapGet (Listen s address).2.listeners ⟨network, address⟩ = some l0) ∧
    (mapGet s.listeners ⟨network, address⟩ = none →
      (Listen s address).1 = .ok s.listenerObjs.length ∧
      mapGet (Listen s address).2.listeners ⟨network, address⟩ = some s.listenerObjs.length ∧
      (Listen s address).2.listenerObjs[s.listenerObjs.length]? =
        some ⟨⟨network, address⟩, [], false, 0⟩ ∧
      (∀ b, b ≠ ⟨network, address⟩ →
        mapGet (Listen s address).2.listeners b = mapGet s.listeners b)) ∧
    (Listen (Listen s address).2 address).1 = .error "address already in use" ∧
    (∀ l s1, Listen s address = (.ok l, s1) →
      ∃ s2, listener.Close s1 l = .ret none s2 ∧
        mapGet s2.listeners ⟨network, address⟩ = none ∧
        (Listen s2 address).1 = .ok s2.listenerObjs.length ∧
        mapGet (Listen s2 address).2.listeners ⟨network, address⟩ =
          some s2.listenerObjs.length) := by
  refine ⟨?_, ?_, ?_, ?_, ?_⟩
  · rw [Listen_eq]
    cases h : mapGet s.listeners ⟨network, address⟩ <;> simp
  · intro l0 h
    rw [Listen_eq, h]
    exact ⟨rfl, rfl, h⟩
  · intro h
    rw [Listen_eq, h]
    refine ⟨rfl, mapGet_mapSet_self _ _ _, by simp, ?_⟩
    intro b hb
    exact mapGet_mapSet_ne _ _ _ _ hb
  · rw [Listen_eq s address]
    cases h : mapGet s.listeners ⟨network, address⟩ with
    | none =>
      simp only
      rw [Listen_eq]
      simp only
      rw [mapGet_mapSet_self]
    | some l0 =>
      simp only
      rw [Listen_eq]
      simp only
      rw [h]
  · intro l s1 hs
    rw [Listen_eq] at hs
    cases h : mapGet s.listeners ⟨network, address⟩ with
    | some l0 => rw [h] at hs; simp at hs
    | none =>
      rw [h] at hs
      simp only [Prod.mk.injEq, Except.ok.injEq] at hs
      obtain ⟨hl, hs1⟩ := hs
      subst hl hs1
      refine ⟨_, listener_Close_fresh _ _ ⟨network, address⟩ (by simp), ?_⟩
      have hnone : mapGet (mapDelete (mapSet s.listeners ⟨network, address⟩ s.listenerObjs.length)
          ⟨network, address⟩) ⟨network, address⟩ = none := mapGet_mapDelete_self _ _
      refine ⟨hnone, ?_, ?_⟩
      · rw [Listen_eq]
        simp only
        rw [hnone]
      · rw [Listen_eq]
        simp only
        rw [hnone]
        exact mapGet_mapSet_self _ _ _

/-- Witness for C3 on the empty registry: `Listen(":9999")` succeeds with listener 0,
and after closing it `Listen(":9999")` succeeds again. -/
theorem Listen_address_in_use_iff_witness :
    ∃ s2, listener.Close (Listen State.init ":9999").2 0 = .ret none s2 ∧
      mapGet s2.listeners ⟨network, ":9999"⟩ = none ∧
      (Listen s2 ":9999").1 = .ok s2.listenerObjs.length ∧
      mapGet (Listen s2 ":9999").2.listeners ⟨network, ":9999"⟩ = some s2.listenerObjs.length :=
  (Listen_address_in_use_iff State.init ":9999").2.2.2.2 0 (Listen State.init ":9999").2 rfl

/-- C6: for every Conn and every time `t`, each of `SetDeadline`, `SetReadDeadline` and
`SetWriteDeadline` returns the non-nil "not supported" error and leaves the state, and in
it the Conn, unchanged, so every `Read`, `Write` and `Close` issued afterwards behaves
exactly as it would have without the call. -/
theorem deadline_setters_not_supported (s : State) (c : Nat) (t : Time) :
    conn.SetDeadline s c t = (some "not supported", s) ∧
    conn.SetReadDeadline s c t = (some "not supported", s) ∧
    conn.SetWriteDeadline s c t = (some "not supported", s) ∧
    (conn.SetDeadline s c t).2.conns[c]? = s.conns[c]? ∧
    (conn.SetReadDeadline s c t).2.conns[c]? = s.conns[c]? ∧
    (conn.SetWriteDeadline s c t).2.conns[c]? = s.conns[c]? ∧
    (∀ (s' : State), s' = (conn.SetDeadline s c t).2 ∨ s' = (conn.SetReadDeadline s c t).2 ∨
        s' = (conn.SetWriteDeadline s c t).2 →
      ∀ (c' n ticket total : Nat) (b : List Byte),
        conn.Read s' c' n = conn.Read s c' n ∧
        conn.Write s' c' b = conn.Write s c' b ∧
        conn.WriteReturn s' c' ticket total = conn.WriteReturn s c' ticket total ∧
        conn.Close s' c' = conn.Close s c') := by
  refine ⟨rfl, rfl, rfl, rfl, rfl, rfl, ?_⟩
  intro s' hs' c' n ticket total b
  have : s' = s := by
    rcases hs' with h | h | h <;> exact h
  subst this
  exact ⟨rfl, rfl, rfl, rfl⟩

/-- Witness for C6 on a conn of a matched pair. -/
theorem deadline_setters_not_supported_witness :
    conn.Read (conn.SetReadDeadline
        ⟨[pipe.fresh], [⟨some 0, some 0, addr.zero, addr.zero⟩], [], [], []⟩ 0 1).2 0 1 =
      conn.Read ⟨[pipe.fresh], [⟨some 0, some 0, addr.zero, addr.zero⟩], [], [], []⟩ 0 1 :=
  ((deadline_setters_not_supported
      ⟨[pipe.fresh], [⟨some 0, some 0, addr.zero, addr.zero⟩], [], [], []⟩ 0 1).2.2.2.2.2.2
    _ (Or.inr (Or.inl rfl)) 0 1 0 0 []).1

theorem conn_CloseWith_cases {σ : Type}
    (closeW closeR : Nat → σ → Option error × σ) (c : conn) (s : σ) :
    conn.CloseWith closeW closeR c s =
      match c.w, c.r with
      | some w, some r => closeR r (closeW w s).2
      | none, some r => closeR r s
      | some w, none => closeW w s
      | none, none => (none, s) := by
  unfold conn.CloseWith
  cases c.w <;> cases c.r <;> rfl

/-- C8 (as stated, refuted): with both ends present, a write end whose `Close` fails and
a read end whose `Close` succeeds, `conn.Close` returns nil, not the write end's error
that the "last non-nil error" rule prescribes. -/
theorem conn_Close_not_lastNonNil :
    ¬ ∀ (closeW closeR : Nat → List String → Option error × List String) (c : conn)
        (w r : Nat) (s : List String), c.w = some w → c.r = some r →
        (conn.CloseWith closeW closeR c s).1 =
          lastNonNil (closeW w s).1 (closeR r (closeW w s).2).1 := by
  intro h
  have := h (fun _ s => (some "write end failed", s ++ ["w"])) (fun _ s => (none, s ++ ["r"]))
    ⟨some 0, some 1, addr.zero, addr.zero⟩ 1 0 [] rfl rfl
  revert this
  decide

/-- C8 (amended): `conn.Close` closes the write end first and then the read end,
skipping an end that is absent, never panics, and returns the result of the last close
it performed: the read end's result when the read end is present, otherwise the write
end's result when the write end is present, otherwise nil. -/
theorem conn_Close_returns_last_close {σ : Type}
    (closeW closeR : Nat → σ → Option error × σ) (c : conn) (s : σ) :
    conn.CloseWith closeW closeR c s =
      match c.w, c.r with
      | some w, some r => closeR r (closeW w s).2
      | none, some r => closeR r s
      | some w, none => closeW w s
      | none, none => (none, s) := by
  unfold conn.CloseWith
  cases c.w <;> cases c.r <;> rfl

/-! ## The byte stream between two conns that share a pipe -/

theorem getElem?_lt_of_eq_some {α : Type} {xs : List α} {i : Nat} {x : α}
    (h : xs[i]? = some x) : i < xs.length := by
  rcases Nat.lt_or_ge i xs.length with h1 | h1
  · exact h1
  · rw [List.getElem?_eq_none h1] at h; cases h

theorem pipe_Read_closed (P : pipe) (n : Nat) (h : P.isClosed = true) :
    P.Read n = .ret ([], some P.readCloseError) P := by
  simp [pipe.Read, h]

theorem pipe_Read_idle (P : pipe) (n : Nat) (h : P.isClosed = false) (hwr : P.wr = []) :
    P.Read n = .block := by
  simp [pipe.Read, h, hwr]

theorem pipe_Read_all (P : pipe) (n : Nat) (b : List Byte) (rest : List (List Byte))
    (h : P.isClosed = false) (hwr : P.wr = b :: rest) (hn : b.length ≤ n) :
    P.Read n = .ret (b, none) { P with wr := rest, served := P.served + 1 } := by
  simp [pipe.Read, h, hwr, Nat.min_eq_right hn]

theorem pipe_Read_part (P : pipe) (n : Nat) (b : List Byte) (rest : List (List Byte))
    (h : P.isClosed = false) (hwr : P.wr = b :: rest) (hn : n < b.length) :
    P.Read n = .ret (b.take n, none) { P with wr := b.drop n :: rest } := by
  have h1 : min n b.length = n := Nat.min_eq_left (Nat.le_of_lt hn)
  have h2 : ¬ b.length ≤ n := Nat.not_le.mpr hn
  simp [pipe.Read, h, hwr, h1, h2]

theorem conn_Read_eq (s : State) (c n p : Nat) (R : conn) (P : pipe)
    (hR : s.conns[c]? = some R) (hr : R.r = some p) (hP : s.pipes[p]? = some P) :
    conn.Read s c n =
      match P.Read n with
      | .ret v p1 => .ret v { s with pipes := s.pipes.set p p1 }
      | .block => .block
      | .panic => .panic := by
  simp [conn.Read, hR, hr, hP]

theorem conn_Write_eq (s : State) (c p : Nat) (b : List Byte) (W : conn) (P : pipe)
    (hW : s.conns[c]? = some W) (hw : W.w = some p) (hP : s.pipes[p]? = some P) :
    conn.Write s c b =
      if P.isClosed then .ret (.inl (0, ErrClosedPipe)) s
      else .ret (.inr (P.served + P.wr.length))
        { s with pipes := s.pipes.set p { P with wr := P.wr ++ [b] } } := by
  unfold conn.Write pipe.Write
  simp only [hW, hw, hP]
  cases P.isClosed <;> simp

theorem Linked_step (wc rc p : Nat) (t : IOtrace) (op : IOop) (h : Linked wc rc p t) :
    Linked wc rc p (ioStep wc rc t op) := by
  obtain ⟨⟨W, hW, hWw⟩, ⟨R, hR, hRr⟩, ⟨P, hP, hPd⟩⟩ := h
  have hlt : p < t.st.pipes.length := getElem?_lt_of_eq_some hP
  cases op with
  | write b =>
    simp only [ioStep]
    rw [conn_Write_eq _ _ _ _ W P hW hWw hP]
    cases hc : P.isClosed with
    | true => exact ⟨⟨W, hW, hWw⟩, ⟨R, hR, hRr⟩, ⟨P, hP, hPd⟩⟩
    | false =>
      refine ⟨⟨W, hW, hWw⟩, ⟨R, hR, hRr⟩, ⟨{ P with wr := P.wr ++ [b] }, ?_, ?_⟩⟩
      · simp [List.getElem?_set, hlt]
      · simp [← hPd]
  | read n =>
    simp only [ioStep]
    rw [conn_Read_eq _ _ _ _ R P hR hRr hP]
    cases hc : P.isClosed with
    | true =>
      rw [pipe_Read_closed P n hc]
      refine ⟨⟨W, hW, hWw⟩, ⟨R, hR, hRr⟩, ⟨P, ?_, ?_⟩⟩
      · simp [List.getElem?_set, hlt]
      · simpa using hPd
    | false =>
      cases hwr : P.wr with
      | nil =>
        rw [pipe_Read_idle P n hc hwr]
        exact ⟨⟨W, hW, hWw⟩, ⟨R, hR, hRr⟩, ⟨P, hP, hPd⟩⟩
      | cons b rest =>
        rw [hwr] at hPd
        rcases Nat.lt_or_ge n b.length with hn | hn
        · rw [pipe_Read_part P n b rest hc hwr hn]
          refine ⟨⟨W, hW, hWw⟩, ⟨R, hR, hRr⟩,
            ⟨{ P with wr := b.drop n :: rest }, by simp [List.getElem?_set, hlt], ?_⟩⟩
          simp only [List.flatten_cons, List.append_assoc]
          rw [← List.append_assoc (List.take _ b), List.take_append_drop]
          simpa [List.append_assoc] using hPd
        · rw [pipe_Read_all P n b rest hc hwr hn]
          refine ⟨⟨W, hW, hWw⟩, ⟨R, hR, hRr⟩,
            ⟨{ P with wr := rest, served := P.served + 1 },
              by simp [List.getElem?_set, hlt], ?_⟩⟩
          simpa [List.append_assoc] using hPd

theorem Linked_run (wc rc p : Nat) (ops : List IOop) (t : IOtrace) (h : Linked wc rc p t) :
    Linked wc rc p (ops.foldl (ioStep wc rc) t) := by
  induction ops generalizing t with
  | nil => exact h
  | cons op ops ih => exact ih _ (Linked_step wc rc p t op h)

theorem reads_idle (wc rc p : Nat) (ns : List Nat) (t : IOtrace) (R : conn) (P : pipe)
    (hR : t.st.conns[rc]? = some R) (hRr : R.r = some p) (hP : t.st.pipes[p]? = some P)
    (hc : P.isClosed = false) (hwr : P.wr = []) :
    (ns.map IOop.read).foldl (ioStep wc rc) t = t := by
  induction ns with
  | nil => rfl
  | cons n ns ih =>
    have hstep : ioStep wc rc t (IOop.read n) = t := by
      simp only [ioStep]
      rw [conn_Read_eq _ _ _ _ R P hR hRr hP, pipe_Read_idle P n hc hwr]
    rw [List.map_cons, List.foldl_cons, hstep]
    exact ih

theorem reads_drain (wc rc p : Nat) (ns : List Nat) (t : IOtrace) (b : List Byte)
    (R : conn) (P : pipe)
    (hR : t.st.conns[rc]? = some R) (hRr : R.r = some p) (hP : t.st.pipes[p]? = some P)
    (hc : P.isClosed = false) (hwr : P.wr = [b]) (hlen : b.length ≤ ns.sum) :
    ((ns.map IOop.read).foldl (ioStep wc rc) t).delivered = t.delivered ++ b := by
  induction ns generalizing t b P with
  | nil =>
    have : b = [] := List.length_eq_zero.mp (Nat.le_zero.mp (by simpa using hlen))
    simp [this]
  | cons n ns ih =>
    have hlt : p < t.st.pipes.length := getElem?_lt_of_eq_some hP
    rw [List.map_cons, List.foldl_cons]
    rcases Nat.lt_or_ge n b.length with hn | hn
    · have hstep : ioStep wc rc t (IOop.read n) =
          { st := { t.st with pipes := t.st.pipes.set p { P with wr := [b.drop n] } },
            written := t.written, delivered := t.delivered ++ b.take n } := by
        simp only [ioStep]
        rw [conn_Read_eq _ _ _ _ R P hR hRr hP, pipe_Read_part P n b [] hc hwr hn]
      have hP1 : (t.st.pipes.set p { P with wr := [b.drop n] })[p]? =
          some { P with wr := [b.drop n] } := by simp [List.getElem?_set, hlt]
      have hlen1 : (b.drop n).length ≤ ns.sum := by
        simp only [List.length_drop, List.sum_cons] at hlen ⊢; omega
      have := ih
        { st := { t.st with pipes := t.st.pipes.set p { P with wr := [b.drop n] } }
          written := t.written
          delivered := t.delivered ++ b.take n }
        (b.drop n) { P with wr := [b.drop n] } hR hP1 hc rfl hlen1
      rw [hstep, this]
      simp [List.append_assoc]
    · have hstep : ioStep wc rc t (IOop.read n) =
          { st := { t.st with
              pipes := t.st.pipes.set p { P with wr := [], served := P.served + 1 } },
            written := t.written, delivered := t.delivered ++ b } := by
        simp only [ioStep]
        rw [conn_Read_eq _ _ _ _ R P hR hRr hP, pipe_Read_all P n b [] hc hwr hn]
      have hP1 : (t.st.pipes.set p { P with wr := [], served := P.served + 1 })[p]? =
          some { P with wr := [], served := P.served + 1 } := by
        simp [List.getElem?_set, hlt]
      have := reads_idle wc rc p ns
        { st := { t.st with
                  pipes := t.st.pipes.set p { P with wr := [], served := P.served + 1 } }
          written := t.written
          delivered := t.delivered ++ b }
        R { P with wr := [], served := P.served + 1 } hR hRr hP1 hc rfl
      rw [hstep, this]

theorem write_then_reads (wc rc p : Nat) (s : State) (S : List Byte) (ns : List Nat)
    (W R : conn) (P : pipe)
    (hW : s.conns[wc]? = some W) (hWw : W.w = some p)
    (hR : s.conns[rc]? = some R) (hRr : R.r = some p) (hP : s.pipes[p]? = some P)
    (hc : P.isClosed = false) (hwr : P.wr = []) (hlen : S.length ≤ ns.sum) :
    (ioRun wc rc s (IOop.write S :: ns.map IOop.read)).delivered = S := by
  have hlt : p < s.pipes.length := getElem?_lt_of_eq_some hP
  unfold ioRun
  rw [List.foldl_cons]
  have hstep : ioStep wc rc ⟨s, [], []⟩ (IOop.write S) =
      { st := { s with pipes := s.pipes.set p { P with wr := [S] } },
        written := S, delivered := [] } := by
    simp only [ioStep]
    rw [conn_Write_eq _ _ _ _ W P hW hWw hP, hc, hwr]
    simp
  have hP1 : (s.pipes.set p { P with wr := [S] })[p]? = some { P with wr := [S] } := by
    simp [List.getElem?_set, hlt]
  have := reads_drain wc rc p ns
    { st := { s with pipes := s.pipes.set p { P with wr := [S] } }
      written := S
      delivered := [] }
    S R { P with wr := [S] } hR hRr hP1 hc rfl hlen
  rw [hstep, this]
  rfl

/-! ## The matched pair -/

theorem acceptStart_eq (s : State) (l : Nat) (L : listener) (hL : s.listenerObjs[l]? = some L) :
    acceptStart s l = .ret s.accepterObjs.length
      { pipes := s.pipes ++ [pipe.fresh],
        conns := s.conns ++ [⟨none, some s.pipes.length, L.laddr, addr.zero⟩],
        accepterObjs := s.accepterObjs ++ [⟨s.conns.length, s.pipes.length, false⟩],
        listenerObjs :=
          s.listenerObjs.set l { L with accepters := L.accepters ++ [s.accepterObjs.length] },
        listeners := s.listeners } := by
  unfold acceptStart ioPipe
  simp [hL]

/-- The effect of a Dial on the last accepter of the queue, given that this accepter is
as `Accept` built it: the two conns are cross-wired and bytes flow in order both ways. -/
theorem Dial_cross_wired_of_built (s : State) (address : String) (l a : Nat)
    (L : listener) (A : accepter) (AC : conn) (P : pipe)
    (hreg : mapGet s.listeners ⟨network, address⟩ = some l)
    (hL : s.listenerObjs[l]? = some L)
    (hq : L.accepters.getLast? = some a)
    (hA : s.accepterObjs[a]? = some A) (hdone : A.done = false)
    (hAC : s.conns[A.conn]? = some AC) (hACw : AC.w = some A.reader)
    (hP : s.pipes[A.reader]? = some P) (hPc : P.isClosed = false) (hPw : P.wr = []) :
    ∃ s', Dial s address = .ret (.ok s.conns.length) s' ∧
      s.pipes[s.pipes.length]? = none ∧
      s'.pipes[s.pipes.length]? = some pipe.fresh ∧
      s'.pipes[A.reader]? = some P ∧
      s'.conns[s.conns.length]? =
        some ⟨some A.reader, some s.pipes.length, ⟨network, address⟩, ⟨network, address⟩⟩ ∧
      s'.conns[A.conn]? =
        some ⟨some s.pipes.length, some A.reader, AC.laddr, ⟨network, address⟩⟩ ∧
      (∀ ops, ∃ Q, (ioRun s.conns.length A.conn s' ops).st.pipes[s.pipes.length]? = some Q ∧
        (ioRun s.conns.length A.conn s' ops).delivered ++ Q.wr.flatten =
          (ioRun s.conns.length A.conn s' ops).written) ∧
      (∀ ops, ∃ Q, (ioRun A.conn s.conns.length s' ops).st.pipes[A.reader]? = some Q ∧
        (ioRun A.conn s.conns.length s' ops).delivered ++ Q.wr.flatten =
          (ioRun A.conn s.conns.length s' ops).written) ∧
      (∀ (S : List Byte) (ns : List Nat), S.length ≤ ns.sum →
        (ioRun s.conns.length A.conn s' (IOop.write S :: ns.map IOop.read)).delivered = S) ∧
      (∀ (S : List Byte) (ns : List Nat), S.length ≤ ns.sum →
        (ioRun A.conn s.conns.length s' (IOop.write S :: ns.map IOop.read)).delivered = S) := by
  have hc : A.conn < s.conns.length := getElem?_lt_of_eq_some hAC
  have hp : A.reader < s.pipes.length := getElem?_lt_of_eq_some hP
  refine ⟨_, Dial_eq_of_pending s address l a L A AC hreg hL hq hA hdone hAC, ?_⟩
  have h1 : (s.pipes ++ [pipe.fresh])[s.pipes.length]? = some pipe.fresh := by simp
  have h2 : (s.pipes ++ [pipe.fresh])[A.reader]? = some P := by
    rw [List.getElem?_append_left hp]; exact hP
  have h3 : ((s.conns ++ [conn.mk (some A.reader) (some s.pipes.length) ⟨network, address⟩
        ⟨network, address⟩]).set A.conn
        { AC with r := some s.pipes.length, raddr := ⟨network, address⟩ })[s.conns.length]? =
      some ⟨some A.reader, some s.pipes.length, ⟨network, address⟩, ⟨network, address⟩⟩ := by
    simp [List.getElem?_set, Nat.ne_of_lt hc]
  have h4 : ((s.conns ++ [conn.mk (some A.reader) (some s.pipes.length) ⟨network, address⟩
        ⟨network, address⟩]).set A.conn
        { AC with r := some s.pipes.length, raddr := ⟨network, address⟩ })[A.conn]? =
      some ⟨some s.pipes.length, some A.reader, AC.laddr, ⟨network, address⟩⟩ := by
    rw [List.getElem?_set]
    simp [hc, Nat.lt_succ_of_lt hc, hACw]
  refine ⟨by simp, h1, h2, h3, h4, ?_, ?_, ?_, ?_⟩
  · intro ops
    exact (Linked_run s.conns.length A.conn s.pipes.length ops _
      ⟨⟨_, h3, rfl⟩, ⟨_, h4, rfl⟩, ⟨_, h1, rfl⟩⟩).hp
  · intro ops
    exact (Linked_run A.conn s.conns.length A.reader ops _
      ⟨⟨_, h4, rfl⟩, ⟨_, h3, rfl⟩, ⟨_, h2, by simp [hPw]⟩⟩).hp
  · intro S ns hlen
    exact write_then_reads s.conns.length A.conn s.pipes.length _ S ns _ _ pipe.fresh
      h3 rfl h4 rfl h1 rfl rfl hlen
  · intro S ns hlen
    exact write_then_reads A.conn s.conns.length A.reader _ S ns _ _ P
      h4 rfl h3 rfl h2 hPc hPw hlen

theorem pendingState_reached :
    acceptStart (Listen State.init ":9999").2 0 = .ret 0 pendingState := by
  decide

/-! ## Closing a listener -/

theorem ClosedMore.refl (s : State) : ClosedMore s s :=
  ⟨rfl, rfl, rfl, rfl, fun _ P h => ⟨P, h, id⟩⟩

theorem ClosedMore.trans {s1 s2 s3 : State} (h12 : ClosedMore s1 s2) (h23 : ClosedMore s2 s3) :
    ClosedMore s1 s3 := by
  refine ⟨h23.conns.trans h12.conns, h23.accepterObjs.trans h12.accepterObjs,
    h23.listenerObjs.trans h12.listenerObjs, h23.listeners.trans h12.listeners, ?_⟩
  intro p P hP
  obtain ⟨P2, hP2, hw2⟩ := h12.pipes p P hP
  obtain ⟨P3, hP3, hw3⟩ := h23.pipes p P2 hP2
  exact ⟨P3, hP3, fun h => hw3 (hw2 h)⟩

theorem closeWriteEnd_spec (w : Nat) (s : State) :
    (closeWriteEnd w s).1 = none ∧ ClosedMore s (closeWriteEnd w s).2 ∧
    ∀ P, s.pipes[w]? = some P →
      ∃ P', (closeWriteEnd w s).2.pipes[w]? = some P' ∧ P'.wclosed = true := by
  unfold closeWriteEnd
  cases hw : s.pipes[w]? with
  | none =>
    refine ⟨rfl, ClosedMore.refl s, ?_⟩
    intro P hP; cases hP
  | some Pw =>
    have hlt : w < s.pipes.length := getElem?_lt_of_eq_some hw
    refine ⟨rfl, ⟨rfl, rfl, rfl, rfl, ?_⟩, ?_⟩
    · intro p P hP
      by_cases hpw : w = p
      · subst hpw
        rw [hw] at hP
        cases hP
        exact ⟨{ Pw with wclosed := true }, by simp [pipe.CloseWrite, List.getElem?_set, hlt],
          fun _ => rfl⟩
      · exact ⟨P, by simp [List.getElem?_set, hpw, hP], id⟩
    · intro P _
      exact ⟨{ Pw with wclosed := true }, by simp [pipe.CloseWrite, List.getElem?_set, hlt], rfl⟩

theorem closeReadEnd_spec (r : Nat) (s : State) :
    (closeReadEnd r s).1 = none ∧ ClosedMore s (closeReadEnd r s).2 := by
  unfold closeReadEnd
  cases hr : s.pipes[r]? with
  | none => exact ⟨rfl, ClosedMore.refl s⟩
  | some Pr =>
    have hlt : r < s.pipes.length := getElem?_lt_of_eq_some hr
    refine ⟨rfl, ⟨rfl, rfl, rfl, rfl, ?_⟩⟩
    intro p P hP
    by_cases hpr : r = p
    · subst hpr
      rw [hr] at hP
      cases hP
      exact ⟨{ Pr with rclosed := true }, by simp [pipe.CloseRead, List.getElem?_set, hlt],
        fun h => h⟩
    · exact ⟨P, by simp [List.getElem?_set, hpr, hP], id⟩

theorem conn_Close_spec (s : State) (c : Nat) (C : conn) (hC : s.conns[c]? = some C) :
    ∃ s', conn.Close s c = .ret none s' ∧ ClosedMore s s' ∧
      ∀ p P, C.w = some p → s.pipes[p]? = some P →
        ∃ P', s'.pipes[p]? = some P' ∧ P'.wclosed = true := by
  unfold conn.Close
  rw [hC]
  simp only
  rw [conn_CloseWith_cases]
  cases hw : C.w with
  | none =>
    cases hr : C.r with
    | none =>
      refine ⟨s, rfl, ClosedMore.refl s, ?_⟩
      intro p P h; cases h
    | some r =>
      refine ⟨(closeReadEnd r s).2, ?_, (closeReadEnd_spec r s).2, ?_⟩
      · simp only; rw [(closeReadEnd_spec r s).1]
      · intro p P h; cases h
  | some w =>
    obtain ⟨hw1, hw2, hw3⟩ := closeWriteEnd_spec w s
    cases hr : C.r with
    | none =>
      refine ⟨(closeWriteEnd w s).2, ?_, hw2, ?_⟩
      · simp only; rw [hw1]
      · intro p P h hP
        cases h
        exact hw3 P hP
    | some r =>
      obtain ⟨hr1, hr2⟩ := closeReadEnd_spec r (closeWriteEnd w s).2
      refine ⟨(closeReadEnd r (closeWriteEnd w s).2).2, ?_, hw2.trans hr2, ?_⟩
      · simp only; rw [hr1]
      · intro p P h hP
        cases h
        obtain ⟨P1, hP1, hc1⟩ := hw3 P hP
        obtain ⟨P2, hP2, hc2⟩ := hr2.pipes _ P1 hP1
        exact ⟨P2, hP2, hc2 hc1⟩

theorem closeAccepters_spec (q : List Nat) (s : State)
    (h : ∀ a ∈ q, ∃ A C, s.accepterObjs[a]? = some A ∧ s.conns[A.conn]? = some C) :
    ∃ s', closeAccepters s q = .ret () s' ∧ ClosedMore s s' ∧
      ∀ a ∈ q, ∀ (A : accepter) (C : conn) (p : Nat) (P : pipe),
        s.accepterObjs[a]? = some A → s.conns[A.conn]? = some C → C.w = some p →
        s.pipes[p]? = some P → ∃ P' : pipe, s'.pipes[p]? = some P' ∧ P'.wclosed = true := by
  induction q generalizing s with
  | nil =>
    refine ⟨s, rfl, ClosedMore.refl s, ?_⟩
    intro a ha; cases ha
  | cons a rest ih =>
    obtain ⟨A, C, hA, hC⟩ := h a (List.mem_cons_self a rest)
    obtain ⟨s1, hclose, hmore1, hw1⟩ := conn_Close_spec s A.conn C hC
    have hrest : ∀ b ∈ rest, ∃ B D, s1.accepterObjs[b]? = some B ∧ s1.conns[B.conn]? = some D := by
      intro b hb
      obtain ⟨B, D, hB, hD⟩ := h b (List.mem_cons_of_mem a hb)
      exact ⟨B, D, by rw [hmore1.accepterObjs]; exact hB, by rw [hmore1.conns]; exact hD⟩
    obtain ⟨s', hrun, hmore2, hw2⟩ := ih s1 hrest
    refine ⟨s', ?_, hmore1.trans hmore2, ?_⟩
    · simp only [closeAccepters, accepter.Close, hA, hclose]
      exact hrun
    · intro b hb B D p P hB hD hDw hP
      rcases List.mem_cons.mp hb with hba | hbrest
      · subst hba
        rw [hA] at hB
        cases hB
        rw [hC] at hD
        cases hD
        obtain ⟨P1, hP1, hc1⟩ := hw1 p P hDw hP
        obtain ⟨P2, hP2, hc2⟩ := hmore2.pipes p P1 hP1
        exact ⟨P2, hP2, hc2 hc1⟩
      · obtain ⟨P1, hP1, _⟩ := hmore1.pipes p P hP
        exact hw2 b hbrest B D p P1 (by rw [hmore1.accepterObjs]; exact hB)
          (by rw [hmore1.conns]; exact hD) hDw hP1

theorem listener_Close_eq (s : State) (l : Nat) (L : listener)
    (hL : s.listenerObjs[l]? = some L) (hflag : L.closed = 0 → L.done = false) :
    listener.Close s l =
      match closeAccepters
        { s with
          listeners := mapDelete s.listeners L.laddr,
          listenerObjs := s.listenerObjs.set l
            { laddr := L.laddr, accepters := [],
              done := if L.closed = 0 then true else L.done,
              closed := if L.closed = 0 then 1 else L.closed } } L.accepters with
      | .ret _ s2 => .ret none s2
      | .block => .block
      | .panic => .panic := by
  unfold listener.Close
  rw [hL]
  by_cases h0 : L.closed = 0
  · simp [h0, hflag h0]
  · simp [h0]

/-- C4: for a Listener with any number of pending Accepters (each as `Accept` left it:
allocated, with its conn, and its `done` channel open), `Listener.Close` returns nil,
fires the closed signal, removes the Listener's address from the registry, leaves the
pending queue empty, and closes the half-built Conn of every Accepter that was pending
(the write end of its pipe is closed); the `select` of every `Accept` blocked on one of
them can then only return the "use of closed network connection" error, and no Conn. -/
theorem listener_Close_releases_pending (s : State) (l : Nat) (L : listener)
    (hL : s.listenerObjs[l]? = some L)
    (hflag : L.closed = 0 ↔ L.done = false)
    (hq : ∀ a ∈ L.accepters, ∃ A C,
      s.accepterObjs[a]? = some A ∧ A.done = false ∧ s.conns[A.conn]? = some C) :
    ∃ s', listener.Close s l = .ret none s' ∧
      (∃ L', s'.listenerObjs[l]? = some L' ∧ L'.done = true ∧ L'.closed ≠ 0 ∧
        L'.accepters = [] ∧ L'.laddr = L.laddr) ∧
      mapGet s'.listeners L.laddr = none ∧
      (∀ a ∈ L.accepters, ∀ (A : accepter) (C : conn) (p : Nat) (P : pipe),
        s.accepterObjs[a]? = some A → s.conns[A.conn]? = some C → C.w = some p →
        s.pipes[p]? = some P → ∃ P' : pipe, s'.pipes[p]? = some P' ∧ P'.wclosed = true) ∧
      (∀ a ∈ L.accepters,
        acceptSelect s' l a = [Except.error "use of closed network connection"]) := by
  have hl : l < s.listenerObjs.length := getElem?_lt_of_eq_some hL
  have hq' : ∀ a ∈ L.accepters, ∃ A C,
      ({ s with
          listeners := mapDelete s.listeners L.laddr,
          listenerObjs := s.listenerObjs.set l
            { laddr := L.laddr, accepters := [],
              done := if L.closed = 0 then true else L.done,
              closed := if L.closed = 0 then 1 else L.closed } } : State).accepterObjs[a]? =
        some A ∧ s.conns[A.conn]? = some C := by
    intro a ha
    obtain ⟨A, C, hA, _, hC⟩ := hq a ha
    exact ⟨A, C, hA, hC⟩
  obtain ⟨s', hrun, hmore, hw⟩ := closeAccepters_spec L.accepters _ hq'
  have hLs' : s'.listenerObjs[l]? = some
      { laddr := L.laddr, accepters := [],
        done := if L.closed = 0 then true else L.done,
        closed := if L.closed = 0 then 1 else L.closed } := by
    rw [hmore.listenerObjs]
    simp [List.getElem?_set, hl]
  have hdone : (if L.closed = 0 then true else L.done) = true := by
    by_cases h0 : L.closed = 0
    · simp [h0]
    · simp only [h0, if_false]
      cases hd : L.done with
      | true => rfl
      | false => exact absurd (hflag.mpr hd) h0
  refine ⟨s', ?_, ⟨_, hLs', hdone, ?_, rfl, rfl⟩, ?_, ?_, ?_⟩
  · rw [listener_Close_eq s l L hL hflag.mp, hrun]
  · by_cases h0 : L.closed = 0
    · simp [h0]
    · simp [h0]
  · rw [hmore.listeners]
    exact mapGet_mapDelete_self _ _
  · intro a ha A C p P hA hC hCw hP
    exact hw a ha A C p P hA hC hCw hP
  · intro a ha
    obtain ⟨A, C, hA, hAd, _⟩ := hq a ha
    have hA' : s'.accepterObjs[a]? = some A := by rw [hmore.accepterObjs]; exact hA
    unfold acceptSelect
    rw [hLs', hA']
    simp [hAd, hdone]

/-- Witness for C4: closing the listener of `pendingState`, whose one `Accept` is blocked,
makes the `select` of that `Accept` return the error. -/
theorem listener_Close_releases_pending_witness :
    ∃ s', listener.Close pendingState 0 = .ret none s' ∧
      mapGet s'.listeners ⟨network, ":9999"⟩ = none ∧
      (∃ P' : pipe, s'.pipes[0]? = some P' ∧ P'.wclosed = true) ∧
      acceptSelect s' 0 0 = [Except.error "use of closed network connection"] :=
  match listener_Close_releases_pending pendingState 0 ⟨⟨network, ":9999"⟩, [0], false, 0⟩
      (by decide) (by decide)
      (fun a ha => ⟨⟨0, 0, false⟩, ⟨none, some 0, ⟨network, ":9999"⟩, addr.zero⟩,
        by rw [List.mem_singleton.mp ha]; decide⟩) with
  | ⟨s', hc, _, hreg, hw, hsel⟩ =>
    ⟨s', hc, hreg,
      hw 0 (List.mem_singleton.mpr rfl) ⟨0, 0, false⟩
        ⟨none, some 0, ⟨network, ":9999"⟩, addr.zero⟩ 0 pipe.fresh
        (by decide) (by decide) rfl (by decide),
      hsel 0 (List.mem_singleton.mpr rfl)⟩

/-! ## Deadlines have no effect; a repeated Close -/

/-- C7 (the code at the failing input): the deadline setters change nothing, so after
`SetReadDeadline(t)` or `SetDeadline(t)`, for any `t`, a `Read` on a conn whose peer has
written nothing still blocks, and after `SetWriteDeadline(t)` or `SetDeadline(t)` a
`Write` on a conn whose peer is not reading is taken by the pipe and does not return. -/
theorem deadline_does_not_unblock (s : State) (c rp wp n : Nat) (t : Time) (b : List Byte)
    (C : conn) (RP WP : pipe)
    (hC : s.conns[c]? = some C) (hr : C.r = some rp) (hw : C.w = some wp)
    (hRP : s.pipes[rp]? = some RP) (hRPc : RP.isClosed = false) (hRPw : RP.wr = [])
    (hWP : s.pipes[wp]? = some WP) (hWPc : WP.isClosed = false) :
    conn.Read (conn.SetReadDeadline s c t).2 c n = .block ∧
    conn.Read (conn.SetDeadline s c t).2 c n = .block ∧
    (∃ s1, conn.Write (conn.SetWriteDeadline s c t).2 c b =
        .ret (.inr (WP.served + WP.wr.length)) s1 ∧
      conn.WriteReturn s1 c (WP.served + WP.wr.length) b.length = none) ∧
    (∃ s1, conn.Write (conn.SetDeadline s c t).2 c b =
        .ret (.inr (WP.served + WP.wr.length)) s1 ∧
      conn.WriteReturn s1 c (WP.served + WP.wr.length) b.length = none) := by
  have hlt : wp < s.pipes.length := getElem?_lt_of_eq_some hWP
  have hread : conn.Read s c n = .block := by
    rw [conn_Read_eq s c n rp C RP hC hr hRP, pipe_Read_idle RP n hRPc hRPw]
  have hwrite : ∃ s1, conn.Write s c b = .ret (.inr (WP.served + WP.wr.length)) s1 ∧
      conn.WriteReturn s1 c (WP.served + WP.wr.length) b.length = none := by
    refine ⟨{ s with pipes := s.pipes.set wp { WP with wr := WP.wr ++ [b] } }, ?_, ?_⟩
    · rw [conn_Write_eq s c wp b C WP hC hw hWP, hWPc]
      rfl
    · have hWPc' : (rclosed : Bool) → (wclosed : Bool) → True := fun _ _ => trivial
      unfold conn.WriteReturn pipe.WriteReturn
      simp only [hC, hw]
      have hget : (s.pipes.set wp { WP with wr := WP.wr ++ [b] })[wp]? =
          some { WP with wr := WP.wr ++ [b] } := by simp [List.getElem?_set, hlt]
      rw [hget]
      have hcl : ({ WP with wr := WP.wr ++ [b] } : pipe).isClosed = false := hWPc
      simp [hcl]
  exact ⟨hread, hread, hwrite, hwrite⟩

/-- Witness for C7: the dialer's conn 1 of the matched pair of `TestDeadline`, right
after `Dial`, the acceptor having written nothing and not reading. -/
theorem deadline_does_not_unblock_witness :
    conn.Read (conn.SetReadDeadline
      ⟨[pipe.fresh, pipe.fresh],
        [⟨some 1, some 0, ⟨network, ":9999"⟩, ⟨network, ":9999"⟩⟩,
          ⟨some 0, some 1, ⟨network, ":9999"⟩, ⟨network, ":9999"⟩⟩],
        [⟨0, 0, true⟩], [⟨⟨network, ":9999"⟩, [], false, 0⟩], [(⟨network, ":9999"⟩, 0)]⟩
      1 1).2 1 1 = .block :=
  (deadline_does_not_unblock
      ⟨[pipe.fresh, pipe.fresh],
        [⟨some 1, some 0, ⟨network, ":9999"⟩, ⟨network, ":9999"⟩⟩,
          ⟨some 0, some 1, ⟨network, ":9999"⟩, ⟨network, ":9999"⟩⟩],
        [⟨0, 0, true⟩], [⟨⟨network, ":9999"⟩, [], false, 0⟩], [(⟨network, ":9999"⟩, 0)]⟩
      1 0 1 1 1 [0] ⟨some 0, some 1, ⟨network, ":9999"⟩, ⟨network, ":9999"⟩⟩
      pipe.fresh pipe.fresh (by decide) rfl rfl (by decide) rfl rfl (by decide) rfl).1

theorem set_length_append {α : Type} (xs ys : List α) (x y : α) :
    (xs ++ x :: ys).set xs.length y = xs ++ y :: ys := by
  induction xs with
  | nil => rfl
  | cons z zs ih => simp [ih]

theorem getElem?_length_append {α : Type} (xs ys : List α) (x : α) :
    (xs ++ x :: ys)[xs.length]? = some x := by
  rw [List.getElem?_append_right (Nat.le_refl _)]
  simp

theorem getElem?_length_succ_append {α : Type} (xs ys : List α) (x y : α) :
    (xs ++ x :: y :: ys)[xs.length + 1]? = some y := by
  rw [List.getElem?_append_right (by omega)]
  simp

/-- C9 (the code at the failing input): `Listen`, `Close`, `Listen` on one address and
then `Close` once more on the first, already closed Listener: the address is no longer
in the registry although the second Listener was never closed. -/
theorem repeated_Close_unregisters_live_listener (s : State) (address : String)
    (h : mapGet s.listeners ⟨network, address⟩ = none) :
    ∃ s1 s2 s3 s4,
      Listen s address = (.ok s.listenerObjs.length, s1) ∧
      listener.Close s1 s.listenerObjs.length = .ret none s2 ∧
      Listen s2 address = (.ok (s.listenerObjs.length + 1), s3) ∧
      mapGet s3.listeners ⟨network, address⟩ = some (s.listenerObjs.length + 1) ∧
      listener.Close s3 s.listenerObjs.length = .ret none s4 ∧
      mapGet s4.listeners ⟨network, address⟩ = none ∧
      s4.listenerObjs[s.listenerObjs.length + 1]? =
        some ⟨⟨network, address⟩, [], false, 0⟩ := by
  have hnone1 : mapGet (mapDelete (mapSet s.listeners ⟨network, address⟩ s.listenerObjs.length)
      ⟨network, address⟩) ⟨network, address⟩ = none := mapGet_mapDelete_self _ _
  refine ⟨{ s with
        listenerObjs := s.listenerObjs ++ [listener.mk ⟨network, address⟩ [] false 0],
        listeners := mapSet s.listeners ⟨network, address⟩ s.listenerObjs.length },
      { s with
        listenerObjs := s.listenerObjs ++ [listener.mk ⟨network, address⟩ [] true 1],
        listeners := mapDelete (mapSet s.listeners ⟨network, address⟩ s.listenerObjs.length)
          ⟨network, address⟩ },
      { s with
        listenerObjs := s.listenerObjs ++
          [listener.mk ⟨network, address⟩ [] true 1, listener.mk ⟨network, address⟩ [] false 0],
        listeners := mapSet (mapDelete
          (mapSet s.listeners ⟨network, address⟩ s.listenerObjs.length) ⟨network, address⟩)
          ⟨network, address⟩ (s.listenerObjs.length + 1) },
      { s with
        listenerObjs := s.listenerObjs ++
          [listener.mk ⟨network, address⟩ [] true 1, listener.mk ⟨network, address⟩ [] false 0],
        listeners := mapDelete (mapSet (mapDelete
          (mapSet s.listeners ⟨network, address⟩ s.listenerObjs.length) ⟨network, address⟩)
          ⟨network, address⟩ (s.listenerObjs.length + 1)) ⟨network, address⟩ },
      ?_, ?_, ?_, ?_, ?_, ?_, ?_⟩
  · rw [Listen_eq, h]
  · rw [listener_Close_fresh _ _ ⟨network, address⟩ (getElem?_length_append _ _ _)]
    simp only [set_length_append]
  · rw [Listen_eq]
    simp only
    rw [hnone1]
    simp
  · exact mapGet_mapSet_self _ _ _
  · rw [listener_Close_eq _ _ ⟨⟨network, address⟩, [], true, 1⟩
      (getElem?_length_append _ _ _) (by simp)]
    simp only [closeAccepters, set_length_append]
    rfl
  · exact mapGet_mapDelete_self _ _
  · exact getElem?_length_succ_append _ _ _ _

/-- Witness for C9 on the empty registry with the address ":9999". -/
theorem repeated_Close_unregisters_live_listener_witness :
    ∃ s1 s2 s3 s4,
      Listen State.init ":9999" = (.ok 0, s1) ∧
      listener.Close s1 0 = .ret none s2 ∧
      Listen s2 ":9999" = (.ok 1, s3) ∧
      mapGet s3.listeners ⟨network, ":9999"⟩ = some 1 ∧
      listener.Close s3 0 = .ret none s4 ∧
      mapGet s4.listeners ⟨network, ":9999"⟩ = none ∧
      s4.listenerObjs[1]? = some ⟨⟨network, ":9999"⟩, [], false, 0⟩ :=
  repeated_Close_unregisters_live_listener State.init ":9999" (by decide)

/-! ## The invariant of the rendezvous -/

theorem getElem?_set_cases {α : Type} {xs : List α} {i j : Nat} {x y : α}
    (h : (xs.set i x)[j]? = some y) :
    (j = i ∧ y = x) ∨ (j ≠ i ∧ xs[j]? = some y) := by
  rw [List.getElem?_set] at h
  by_cases hij : i = j
  · subst hij
    simp only [if_true] at h
    split at h
    · left; exact ⟨rfl, (Option.some.inj h).symm⟩
    · cases h
  · simp only [hij, if_false] at h
    right; exact ⟨fun e => hij e.symm, h⟩

theorem getElem?_append_one_cases {α : Type} {xs : List α} {j : Nat} {x y : α}
    (h : (xs ++ [x])[j]? = some y) :
    (j = xs.length ∧ y = x) ∨ (j < xs.length ∧ xs[j]? = some y) := by
  rcases Nat.lt_or_ge j xs.length with hj | hj
  · right
    rw [List.getElem?_append_left hj] at h
    exact ⟨hj, h⟩
  · left
    rw [List.getElem?_append_right hj] at h
    have hlt := getElem?_lt_of_eq_some h
    simp only [List.length_singleton] at hlt
    have hj0 : j - xs.length = 0 := by omega
    rw [hj0] at h
    simp only [List.getElem?_cons_zero] at h
    exact ⟨by omega, (Option.some.inj h).symm⟩

theorem getElem?_append_one_of_some {α : Type} {xs : List α} {j : Nat} {x y : α}
    (h : xs[j]? = some y) : (xs ++ [x])[j]? = some y := by
  rw [List.getElem?_append_left (getElem?_lt_of_eq_some h)]
  exact h

theorem getElem?_set_of_ne {α : Type} {xs : List α} {i j : Nat} {x y : α}
    (hij : j ≠ i) (h : xs[j]? = some y) : (xs.set i x)[j]? = some y := by
  rw [List.getElem?_set]
  simp [Ne.symm hij, h]

theorem getElem?_set_self_of_lt {α : Type} {xs : List α} {i : Nat} {x : α}
    (h : i < xs.length) : (xs.set i x)[i]? = some x := by
  rw [List.getElem?_set]
  simp [h]

theorem snd_unique_of_nodup {ps : List (Nat × Nat)} (hnd : (ps.map Prod.snd).Nodup)
    {i j a : Nat} (hi : (i, a) ∈ ps) (hj : (j, a) ∈ ps) : i = j := by
  have := List.inj_on_of_nodup_map hnd hi hj rfl
  exact (Prod.mk.inj this).1

theorem Inv_dialStart (y : Sys) (i : Nat) (address : String) (hinv : Inv y)
    (hpc : y.dials[i]? = some (.start address)) : Inv (y.step (.dial i)) := by
  have hstep : y.step (.dial i) =
      match mapGet y.st.listeners ⟨network, address⟩ with
      | none =>
        { y with
          st := { y.st with
            pipes := y.st.pipes ++ [pipe.fresh],
            conns := y.st.conns ++ [⟨none, some y.st.pipes.length, ⟨network, address⟩, addr.zero⟩] },
          dials := y.dials.set i (.returned (.error "connection refused")) }
      | some l =>
        { y with
          st := { y.st with
            pipes := y.st.pipes ++ [pipe.fresh],
            conns := y.st.conns ++ [⟨none, some y.st.pipes.length, ⟨network, address⟩, addr.zero⟩] },
          dials := y.dials.set i (.locked ⟨y.st.conns.length, y.st.pipes.length, l⟩) } := by
    simp only [Sys.step, hpc, dialStart_eq]
    cases mapGet y.st.listeners ⟨network, address⟩ <;> rfl
  rw [hstep]
  cases hreg : mapGet y.st.listeners ⟨network, address⟩ with
  | none =>
    refine ⟨hinv.reg, ?_, hinv.qnd, hinv.qdj, hinv.qp, hinv.pnd, hinv.pv, ?_, ?_, hinv.fd,
      hinv.fnd, ?_⟩
    · intro l L a hL ha
      obtain ⟨A, hA, hd, hc⟩ := hinv.qv l L a hL ha
      exact ⟨A, hA, hd, by simp only [List.length_append, List.length_singleton]; omega⟩
    · intro j f hj
      rcases getElem?_set_cases hj with ⟨_, h2⟩ | ⟨_, h2⟩
      · cases h2
      · obtain ⟨h3, h4⟩ := hinv.lk j f h2
        exact ⟨by simp only [List.length_append, List.length_singleton]; omega, h4⟩
    · intro j f a hj
      rcases getElem?_set_cases hj with ⟨_, h2⟩ | ⟨_, h2⟩
      · cases h2
      · obtain ⟨h3, h4, A, hA, hd, hc⟩ := hinv.pp j f a h2
        exact ⟨h3, by simp only [List.length_append, List.length_singleton]; omega, A, hA, hd,
          by simp only [List.length_append, List.length_singleton]; omega⟩
    · intro j hj
      rcases getElem?_set_cases hj with ⟨_, h2⟩ | ⟨_, h2⟩
      · cases h2
      · exact hinv.nc j h2
  | some l =>
    refine ⟨hinv.reg, ?_, hinv.qnd, hinv.qdj, hinv.qp, hinv.pnd, hinv.pv, ?_, ?_, hinv.fd,
      hinv.fnd, ?_⟩
    · intro l L a hL ha
      obtain ⟨A, hA, hd, hc⟩ := hinv.qv l L a hL ha
      exact ⟨A, hA, hd, by simp only [List.length_append, List.length_singleton]; omega⟩
    · intro j f hj
      rcases getElem?_set_cases hj with ⟨_, h2⟩ | ⟨_, h2⟩
      · cases h2
        exact ⟨by simp only [List.length_append, List.length_singleton]; omega,
          hinv.reg _ _ hreg⟩
      · obtain ⟨h3, h4⟩ := hinv.lk j f h2
        exact ⟨by simp only [List.length_append, List.length_singleton]; omega, h4⟩
    · intro j f a hj
      rcases getElem?_set_cases hj with ⟨_, h2⟩ | ⟨_, h2⟩
      · cases h2
      · obtain ⟨h3, h4, A, hA, hd, hc⟩ := hinv.pp j f a h2
        exact ⟨h3, by simp only [List.length_append, List.length_singleton]; omega, A, hA, hd,
          by simp only [List.length_append, List.length_singleton]; omega⟩
    · intro j hj
      rcases getElem?_set_cases hj with ⟨_, h2⟩ | ⟨_, h2⟩
      · cases h2
      · exact hinv.nc j h2

theorem mem_of_mem_dropLast {α : Type} {xs : List α} {x : α} (h : x ∈ xs.dropLast) : x ∈ xs :=
  (List.dropLast_sublist xs).subset h

theorem ne_last_of_mem_dropLast {xs : List Nat} {x a : Nat} (hnd : xs.Nodup)
    (hlast : xs.getLast? = some a) (h : x ∈ xs.dropLast) : x ≠ a := by
  rcases List.eq_nil_or_concat xs with hx | ⟨q, b, hx⟩
  · subst hx; cases hlast
  · subst hx
    rw [List.concat_eq_append] at hlast h hnd
    rw [List.getLast?_concat] at hlast
    cases hlast
    rw [List.dropLast_concat] at h
    intro hxa
    subst hxa
    have := List.nodup_append.mp hnd
    exact this.2.2 h (List.mem_singleton.mpr rfl)

theorem mem_of_getLast? {α : Type} {xs : List α} {a : α} (h : xs.getLast? = some a) : a ∈ xs :=
  List.mem_of_getLast?_eq_some h

theorem Inv_dialPop (y : Sys) (i : Nat) (f : dialFrame) (hinv : Inv y)
    (hpc : y.dials[i]? = some (.locked f)) : Inv (y.step (.dial i)) := by
  obtain ⟨hfc, hfl⟩ := hinv.lk i f hpc
  obtain ⟨L, hL⟩ : ∃ L, y.st.listenerObjs[f.l]? = some L :=
    ⟨y.st.listenerObjs[f.l], List.getElem?_eq_getElem hfl⟩
  have hstep : y.step (.dial i) =
      match L.accepters.getLast? with
      | none => y
      | some a =>
        { y with
          st := { y.st with
            listenerObjs := y.st.listenerObjs.set f.l { L with accepters := L.accepters.dropLast } },
          dials := y.dials.set i (.popped f a),
          pops := y.pops ++ [(i, a)] } := by
    simp only [Sys.step, hpc, dialPop_eq y.st f.l L hL]
    cases L.accepters.getLast? <;> rfl
  rw [hstep]
  cases hlast : L.accepters.getLast? with
  | none => exact hinv
  | some a =>
    have haL : a ∈ L.accepters := mem_of_getLast? hlast
    have hndL : L.accepters.Nodup := hinv.qnd f.l L hL
    -- every queue of the new state is part of the queue it was
    have hsub : ∀ (l : Nat) (L' : listener),
        (y.st.listenerObjs.set f.l { L with accepters := L.accepters.dropLast })[l]? = some L' →
        (l = f.l ∧ L'.accepters = L.accepters.dropLast) ∨
          (l ≠ f.l ∧ y.st.listenerObjs[l]? = some L') := by
      intro l L' h
      rcases getElem?_set_cases h with ⟨h1, h2⟩ | ⟨h1, h2⟩
      · left; exact ⟨h1, by rw [h2]⟩
      · right; exact ⟨h1, h2⟩
    have hold : ∀ (l : Nat) (L' : listener) (b : Nat),
        (y.st.listenerObjs.set f.l { L with accepters := L.accepters.dropLast })[l]? = some L' →
        b ∈ L'.accepters → ∃ L0, y.st.listenerObjs[l]? = some L0 ∧ b ∈ L0.accepters ∧ b ≠ a := by
      intro l L' b h hb
      rcases hsub l L' h with ⟨h1, h2⟩ | ⟨h1, h2⟩
      · rw [h2] at hb
        exact ⟨L, by rw [h1]; exact hL, mem_of_mem_dropLast hb,
          ne_last_of_mem_dropLast hndL hlast hb⟩
      · refine ⟨L', h2, hb, ?_⟩
        intro hba
        subst hba
        exact hinv.qdj l f.l L' L b h1 h2 hL hb haL
    refine ⟨?_, ?_, ?_, ?_, ?_, ?_, ?_, ?_, ?_, ?_, hinv.fnd, ?_⟩
    · intro k l hk
      have := hinv.reg k l hk
      simpa using this
    · intro l L' b h hb
      obtain ⟨L0, hL0, hb0, _⟩ := hold l L' b h hb
      exact hinv.qv l L0 b hL0 hb0
    · intro l L' h
      rcases hsub l L' h with ⟨_, h2⟩ | ⟨_, h2⟩
      · rw [h2]; exact hndL.sublist (List.dropLast_sublist _)
      · exact hinv.qnd l L' h2
    · intro l l' L1 L2 b hne h1 h2 hb1 hb2
      obtain ⟨L10, hL10, hb10, _⟩ := hold l L1 b h1 hb1
      obtain ⟨L20, hL20, hb20, _⟩ := hold l' L2 b h2 hb2
      exact hinv.qdj l l' L10 L20 b hne hL10 hL20 hb10 hb20
    · intro l L' b h hb
      obtain ⟨L0, hL0, hb0, hba⟩ := hold l L' b h hb
      simp only [List.map_append, List.map_cons, List.map_nil, List.mem_append,
        List.mem_singleton, not_or]
      exact ⟨hinv.qp l L0 b hL0 hb0, hba⟩
    · simp only [List.map_append, List.map_cons, List.map_nil]
      refine List.nodup_append.mpr ⟨hinv.pnd, List.nodup_singleton a, ?_⟩
      intro b hb1 hb2
      rw [List.mem_singleton.mp hb2] at hb1
      exact hinv.qp f.l L a hL haL hb1
    · intro b hb
      simp only [List.map_append, List.map_cons, List.map_nil, List.mem_append,
        List.mem_singleton] at hb
      rcases hb with hb | hb
      · exact hinv.pv b hb
      · obtain ⟨A, hA, _, _⟩ := hinv.qv f.l L a hL haL
        rw [hb]
        exact getElem?_lt_of_eq_some hA
    · intro j g hj
      rcases getElem?_set_cases hj with ⟨_, h2⟩ | ⟨_, h2⟩
      · cases h2
      · have := hinv.lk j g h2
        simpa using this
    · intro j g b hj
      rcases getElem?_set_cases hj with ⟨h1, h2⟩ | ⟨_, h2⟩
      · cases h2
        exact ⟨List.mem_append.mpr (Or.inr (List.mem_singleton.mpr (by rw [h1]))), hfc,
          hinv.qv f.l L a hL haL⟩
      · obtain ⟨h3, h4, h5⟩ := hinv.pp j g b h2
        exact ⟨List.mem_append.mpr (Or.inl h3), h4, h5⟩
    · intro b hb
      obtain ⟨h1, h2⟩ := hinv.fd b hb
      refine ⟨h1, ?_⟩
      simp only [List.map_append, List.mem_append]
      exact Or.inl h2
    · intro j hj
      rcases getElem?_set_cases hj with ⟨_, h2⟩ | ⟨_, h2⟩
      · cases h2
      · exact hinv.nc j h2

theorem dialWire_eq (s : State) (f : dialFrame) (a : Nat) (A : accepter)
    (hA : s.accepterObjs[a]? = some A) (hd : A.done = false)
    (hfc : f.conn < s.conns.length) (hac : A.conn < s.conns.length) :
    ∃ cs : List conn, cs.length = s.conns.length ∧
      dialWire s f a = .ret f.conn
        { s with conns := cs, accepterObjs := s.accepterObjs.set a { A with done := true } } := by
  obtain ⟨C, hC⟩ : ∃ C, s.conns[f.conn]? = some C := ⟨_, List.getElem?_eq_getElem hfc⟩
  have hlen : A.conn <
      (s.conns.set f.conn { C with r := some A.reader, raddr := C.laddr }).length := by
    simpa using hac
  obtain ⟨AC, hAC⟩ : ∃ AC,
      (s.conns.set f.conn { C with r := some A.reader, raddr := C.laddr })[A.conn]? = some AC :=
    ⟨_, List.getElem?_eq_getElem hlen⟩
  refine ⟨(s.conns.set f.conn { C with r := some A.reader, raddr := C.laddr }).set A.conn
    { AC with r := some f.r, raddr := C.laddr }, by simp, ?_⟩
  unfold dialWire
  simp only [hA, hC, hAC, hd]
  rfl

theorem Inv_dialWire (y : Sys) (i : Nat) (f : dialFrame) (a : Nat) (hinv : Inv y)
    (hpc : y.dials[i]? = some (.popped f a)) : Inv (y.step (.dial i)) := by
  obtain ⟨hia, hfc, A, hA, hd, hac⟩ := hinv.pp i f a hpc
  obtain ⟨cs, hcs, hw⟩ := dialWire_eq y.st f a A hA hd hfc hac
  have hap : a ∈ y.pops.map Prod.snd := List.mem_map.mpr ⟨(i, a), hia, rfl⟩
  have hstep : y.step (.dial i) =
      { y with
        st := { y.st with
          conns := cs, accepterObjs := y.st.accepterObjs.set a { A with done := true } },
        dials := y.dials.set i (.returned (.ok f.conn)),
        fires := y.fires ++ [a] } := by
    simp only [Sys.step, hpc, hw]
  rw [hstep]
  refine ⟨hinv.reg, ?_, hinv.qnd, hinv.qdj, hinv.qp, hinv.pnd, ?_, ?_, ?_, ?_, ?_, ?_⟩
  · intro l L b hL hb
    obtain ⟨B, hB, hBd, hBc⟩ := hinv.qv l L b hL hb
    have hba : b ≠ a := fun e => hinv.qp l L b hL hb (e ▸ hap)
    exact ⟨B, getElem?_set_of_ne hba hB, hBd, by rw [hcs]; exact hBc⟩
  · intro b hb
    have := hinv.pv b hb
    simpa using this
  · intro j g hj
    rcases getElem?_set_cases hj with ⟨_, h2⟩ | ⟨_, h2⟩
    · cases h2
    · have := hinv.lk j g h2
      exact ⟨by rw [hcs]; exact this.1, this.2⟩
  · intro j g b hj
    rcases getElem?_set_cases hj with ⟨_, h2⟩ | ⟨h1, h2⟩
    · cases h2
    · obtain ⟨h3, h4, B, hB, hBd, hBc⟩ := hinv.pp j g b h2
      have hba : b ≠ a := by
        intro e
        subst e
        exact h1 (snd_unique_of_nodup hinv.pnd h3 hia)
      exact ⟨h3, by rw [hcs]; exact h4, B, getElem?_set_of_ne hba hB, hBd,
        by rw [hcs]; exact hBc⟩
  · intro b hb
    rcases List.mem_append.mp hb with hb | hb
    · obtain ⟨⟨B, hB, hBd⟩, h2⟩ := hinv.fd b hb
      have hba : b ≠ a := by
        intro e
        subst e
        rw [hA] at hB
        cases hB
        rw [hd] at hBd
        cases hBd
      exact ⟨⟨B, getElem?_set_of_ne hba hB, hBd⟩, h2⟩
    · rw [List.mem_singleton.mp hb]
      exact ⟨⟨{ A with done := true },
        getElem?_set_self_of_lt (getElem?_lt_of_eq_some hA), rfl⟩, hap⟩
  · refine List.nodup_append.mpr ⟨hinv.fnd, List.nodup_singleton a, ?_⟩
    intro b hb1 hb2
    rw [List.mem_singleton.mp hb2] at hb1
    obtain ⟨⟨B, hB, hBd⟩, _⟩ := hinv.fd a hb1
    rw [hA] at hB
    cases hB
    rw [hd] at hBd
    cases hBd
  · intro j hj
    rcases getElem?_set_cases hj with ⟨_, h2⟩ | ⟨_, h2⟩
    · cases h2
    · exact hinv.nc j h2

theorem Inv_acceptStart (y : Sys) (j l : Nat) (hinv : Inv y)
    (hpc : y.accepts[j]? = some (.start l)) : Inv (y.step (.accept j 0)) ∧
    ∀ k, y.step (.accept j k) = y.step (.accept j 0) := by
  cases hL : y.st.listenerObjs[l]? with
  | none =>
    have hstep : ∀ k, y.step (.accept j k) = { y with accepts := y.accepts.set j .crashed } := by
      intro k
      simp only [Sys.step, hpc, acceptStart, hL]
    refine ⟨?_, fun k => by rw [hstep k, hstep 0]⟩
    rw [hstep 0]
    exact ⟨hinv.reg, hinv.qv, hinv.qnd, hinv.qdj, hinv.qp, hinv.pnd, hinv.pv, hinv.lk, hinv.pp,
      hinv.fd, hinv.fnd, hinv.nc⟩
  | some L =>
    have hstep : ∀ k, y.step (.accept j k) =
        { y with
          st :=
            { pipes := y.st.pipes ++ [pipe.fresh],
              conns := y.st.conns ++ [⟨none, some y.st.pipes.length, L.laddr, addr.zero⟩],
              accepterObjs :=
                y.st.accepterObjs ++ [⟨y.st.conns.length, y.st.pipes.length, false⟩],
              listenerObjs := y.st.listenerObjs.set l
                { L with accepters := L.accepters ++ [y.st.accepterObjs.length] },
              listeners := y.st.listeners },
          accepts := y.accepts.set j (.waiting l y.st.accepterObjs.length) } := by
      intro k
      simp only [Sys.step, hpc, acceptStart_eq y.st l L hL]
    refine ⟨?_, fun k => by rw [hstep k, hstep 0]⟩
    rw [hstep 0]
    have hfresh : ∀ (l' : Nat) (L' : listener), y.st.listenerObjs[l']? = some L' →
        y.st.accepterObjs.length ∉ L'.accepters := by
      intro l' L' h hmem
      obtain ⟨B, hB, _, _⟩ := hinv.qv l' L' _ h hmem
      exact Nat.lt_irrefl _ (getElem?_lt_of_eq_some hB)
    have hold : ∀ (l' : Nat) (L' : listener) (b : Nat),
        (y.st.listenerObjs.set l
          { L with accepters := L.accepters ++ [y.st.accepterObjs.length] })[l']? = some L' →
        b ∈ L'.accepters →
        (l' = l ∧ b = y.st.accepterObjs.length) ∨
          (b ≠ y.st.accepterObjs.length ∧
            ∃ L0, y.st.listenerObjs[l']? = some L0 ∧ b ∈ L0.accepters) := by
      intro l' L' b h hb
      rcases getElem?_set_cases h with ⟨h1, h2⟩ | ⟨h1, h2⟩
      · rw [h2] at hb
        rcases List.mem_append.mp hb with hb | hb
        · right
          refine ⟨?_, L, by rw [h1]; exact hL, hb⟩
          intro e
          exact hfresh l L hL (e ▸ hb)
        · left; exact ⟨h1, List.mem_singleton.mp hb⟩
      · right
        refine ⟨?_, L', h2, hb⟩
        intro e
        exact hfresh l' L' h2 (e ▸ hb)
    refine ⟨?_, ?_, ?_, ?_, ?_, hinv.pnd, ?_, ?_, ?_, ?_, hinv.fnd, hinv.nc⟩
    · intro k l' hk
      have := hinv.reg k l' hk
      simpa using this
    · intro l' L' b h hb
      rcases hold l' L' b h hb with ⟨_, h2⟩ | ⟨_, L0, hL0, hb0⟩
      · rw [h2]
        exact ⟨⟨y.st.conns.length, y.st.pipes.length, false⟩, by simp, rfl, by simp⟩
      · obtain ⟨B, hB, hBd, hBc⟩ := hinv.qv l' L0 b hL0 hb0
        exact ⟨B, getElem?_append_one_of_some hB, hBd,
          by simp only [List.length_append, List.length_singleton]; omega⟩
    · intro l' L' h
      rcases getElem?_set_cases h with ⟨_, h2⟩ | ⟨_, h2⟩
      · rw [h2]
        refine List.nodup_append.mpr ⟨hinv.qnd l L hL, List.nodup_singleton _, ?_⟩
        intro b hb1 hb2
        rw [List.mem_singleton.mp hb2] at hb1
        exact hfresh l L hL hb1
      · exact hinv.qnd l' L' h2
    · intro l1 l2 L1 L2 b hne h1 h2 hb1 hb2
      rcases hold l1 L1 b h1 hb1 with ⟨e1, e2⟩ | ⟨n1, L10, hL10, hb10⟩
      · rcases hold l2 L2 b h2 hb2 with ⟨e3, _⟩ | ⟨n2, _⟩
        · exact hne (e1.trans e3.symm)
        · exact n2 e2
      · rcases hold l2 L2 b h2 hb2 with ⟨_, e4⟩ | ⟨_, L20, hL20, hb20⟩
        · exact n1 e4
        · exact hinv.qdj l1 l2 L10 L20 b hne hL10 hL20 hb10 hb20
    · intro l' L' b h hb
      rcases hold l' L' b h hb with ⟨_, h2⟩ | ⟨_, L0, hL0, hb0⟩
      · rw [h2]
        intro hmem
        exact Nat.lt_irrefl _ (hinv.pv _ hmem)
      · exact hinv.qp l' L0 b hL0 hb0
    · intro b hb
      have := hinv.pv b hb
      simp only [List.length_append, List.length_singleton]
      omega
    · intro i f hi
      have := hinv.lk i f hi
      exact ⟨by simp only [List.length_append, List.length_singleton]; omega,
        by simpa using this.2⟩
    · intro i f b hi
      obtain ⟨h3, h4, B, hB, hBd, hBc⟩ := hinv.pp i f b hi
      exact ⟨h3, by simp only [List.length_append, List.length_singleton]; omega, B,
        getElem?_append_one_of_some hB, hBd,
        by simp only [List.length_append, List.length_singleton]; omega⟩
    · intro b hb
      obtain ⟨⟨B, hB, hBd⟩, h2⟩ := hinv.fd b hb
      exact ⟨⟨B, getElem?_append_one_of_some hB, hBd⟩, h2⟩

theorem Inv_step (y : Sys) (act : Act) (hinv : Inv y) : Inv (y.step act) := by
  cases act with
  | dial i =>
    cases hpc : y.dials[i]? with
    | none =>
      have : y.step (.dial i) = y := by simp only [Sys.step, hpc]
      rw [this]; exact hinv
    | some pc =>
      cases pc with
      | start address => exact Inv_dialStart y i address hinv hpc
      | locked f => exact Inv_dialPop y i f hinv hpc
      | popped f a => exact Inv_dialWire y i f a hinv hpc
      | returned res =>
        have : y.step (.dial i) = y := by simp only [Sys.step, hpc]
        rw [this]; exact hinv
      | crashed =>
        have : y.step (.dial i) = y := by simp only [Sys.step, hpc]
        rw [this]; exact hinv
  | accept j k =>
    cases hpc : y.accepts[j]? with
    | none =>
      have : y.step (.accept j k) = y := by simp only [Sys.step, hpc]
      rw [this]; exact hinv
    | some pc =>
      cases pc with
      | start l =>
        obtain ⟨h1, h2⟩ := Inv_acceptStart y j l hinv hpc
        rw [h2 k]; exact h1
      | waiting l a =>
        have hstep : y.step (.accept j k) =
            match (acceptSelect y.st l a)[k]? with
            | some res => { y with accepts := y.accepts.set j (.returned res) }
            | none => y := by
          simp only [Sys.step, hpc]
        rw [hstep]
        cases (acceptSelect y.st l a)[k]? with
        | none => exact hinv
        | some res =>
          exact ⟨hinv.reg, hinv.qv, hinv.qnd, hinv.qdj, hinv.qp, hinv.pnd, hinv.pv, hinv.lk,
            hinv.pp, hinv.fd, hinv.fnd, hinv.nc⟩
      | returned res =>
        have : y.step (.accept j k) = y := by simp only [Sys.step, hpc]
        rw [this]; exact hinv
      | crashed =>
        have : y.step (.accept j k) = y := by simp only [Sys.step, hpc]
        rw [this]; exact hinv

theorem Inv_run (sched : List Act) (y : Sys) (hinv : Inv y) : Inv (y.run sched) := by
  induction sched generalizing y with
  | nil => exact hinv
  | cons act sched ih => exact ih _ (Inv_step y act hinv)

/-! ## Well-formed states -/

theorem Inv_of_WFState (s : State) (dials : List dialPC) (accepts : List acceptPC)
    (h : WFState s)
    (hd : ∀ (i : Nat) (pc : dialPC), dials[i]? = some pc → ∃ address, pc = .start address) :
    Inv ⟨s, dials, accepts, [], []⟩ := by
  refine ⟨h.reg, h.qv, h.qnd, h.qdj, ?_, List.nodup_nil, ?_, ?_, ?_, ?_, List.nodup_nil, ?_⟩
  · intro l L a _ _ hmem
    cases hmem
  · intro a ha
    cases ha
  · intro i f hi
    obtain ⟨_, h1⟩ := hd i _ hi
    cases h1
  · intro i f a hi
    obtain ⟨_, h1⟩ := hd i _ hi
    cases h1
  · intro a ha
    cases ha
  · intro i hi
    obtain ⟨_, h1⟩ := hd i _ hi
    cases h1

theorem WFState_of_Inv (y : Sys) (h : Inv y) : WFState y.st :=
  ⟨h.reg, h.qv, h.qnd, h.qdj⟩

theorem WFState_init : WFState State.init := by
  refine ⟨?_, ?_, ?_, ?_⟩
  · intro k l h
    cases h
  · intro l L a h
    simp [State.init] at h
  · intro l L h
    simp [State.init] at h
  · intro l l' L L' a _ h
    simp [State.init] at h

theorem WFState_acceptStart (s s' : State) (l a : Nat) (h : WFState s)
    (hs : acceptStart s l = .ret a s') : WFState s' := by
  have hinv : Inv ⟨s, [], [.start l], [], []⟩ :=
    Inv_of_WFState s [] [.start l] h (by intro i pc hi; simp at hi)
  have := WFState_of_Inv _ (Inv_step _ (.accept 0 0) hinv)
  simpa [Sys.step, hs] using this

theorem WFState_Listen (s : State) (address : String) (h : WFState s) :
    WFState (Listen s address).2 := by
  have hget : ∀ (l : Nat) (L : listener),
      (s.listenerObjs ++ [listener.mk ⟨network, address⟩ [] false 0])[l]? = some L →
      L.accepters = [] ∨ s.listenerObjs[l]? = some L := by
    intro l L hL
    rcases getElem?_append_one_cases hL with ⟨_, h2⟩ | ⟨_, h2⟩
    · left; rw [h2]
    · right; exact h2
  have hobj : WFState { s with
      listenerObjs := s.listenerObjs ++ [listener.mk ⟨network, address⟩ [] false 0] } := by
    refine ⟨?_, ?_, ?_, ?_⟩
    · intro k l hk
      have := h.reg k l hk
      simp only [List.length_append, List.length_singleton]
      omega
    · intro l L a hL ha
      rcases hget l L hL with h1 | h1
      · rw [h1] at ha; cases ha
      · exact h.qv l L a h1 ha
    · intro l L hL
      rcases hget l L hL with h1 | h1
      · rw [h1]; exact List.nodup_nil
      · exact h.qnd l L h1
    · intro l l' L L' a hne hL hL' ha ha'
      rcases hget l L hL with h1 | h1
      · rw [h1] at ha; cases ha
      · rcases hget l' L' hL' with h2 | h2
        · rw [h2] at ha'; cases ha'
        · exact h.qdj l l' L L' a hne h1 h2 ha ha'
  rw [Listen_eq]
  cases hreg : mapGet s.listeners ⟨network, address⟩ with
  | some l0 => exact hobj
  | none =>
    refine ⟨?_, hobj.qv, hobj.qnd, hobj.qdj⟩
    intro k l hk
    by_cases hka : k = ⟨network, address⟩
    · subst hka
      have hk' : mapGet (mapSet s.listeners ⟨network, address⟩ s.listenerObjs.length)
          ⟨network, address⟩ = some l := hk
      rw [mapGet_mapSet_self] at hk'
      cases hk'
      simp
    · have hk' : mapGet (mapSet s.listeners ⟨network, address⟩ s.listenerObjs.length) k =
          some l := hk
      rw [mapGet_mapSet_ne _ _ _ _ hka] at hk'
      exact hobj.reg k l hk'

theorem WFState_pendingState : WFState pendingState := by
  have h1 := WFState_Listen State.init ":9999" WFState_init
  exact WFState_acceptStart _ _ 0 0 h1 pendingState_reached

/-! ## As many Dial calls as pending accepters -/

theorem fst_unique_of_nodup {ps : List (Nat × Nat)} (hnd : (ps.map Prod.fst).Nodup)
    {i a b : Nat} (ha : (i, a) ∈ ps) (hb : (i, b) ∈ ps) : a = b := by
  have := List.inj_on_of_nodup_map hnd ha hb rfl
  exact (Prod.mk.inj this).2

theorem length_lt_of_nodup_of_missing (xs : List Nat) (n i : Nat) (hnd : xs.Nodup)
    (hlt : ∀ x ∈ xs, x < n) (hi : i < n) (hne : i ∉ xs) : xs.length < n := by
  have hsub : xs ⊆ (List.range n).erase i := by
    intro x hx
    have hxi : x ≠ i := fun e => hne (e ▸ hx)
    exact (List.mem_erase_of_ne hxi).mpr (List.mem_range.mpr (hlt x hx))
  have hle := (List.subperm_of_subset hnd hsub).length_le
  rw [List.length_erase_of_mem (List.mem_range.mpr hi), List.length_range] at hle
  omega

theorem step_dial_start (y : Sys) (i l : Nat) (address : String)
    (hpc : y.dials[i]? = some (.start address))
    (hreg : mapGet y.st.listeners ⟨network, address⟩ = some l) :
    y.step (.dial i) =
      { y with
        st := { y.st with
          pipes := y.st.pipes ++ [pipe.fresh],
          conns := y.st.conns ++ [⟨none, some y.st.pipes.length, ⟨network, address⟩, addr.zero⟩] },
        dials := y.dials.set i (.locked ⟨y.st.conns.length, y.st.pipes.length, l⟩) } := by
  simp only [Sys.step, hpc, dialStart_eq, hreg]

theorem step_dial_locked (y : Sys) (i a : Nat) (f : dialFrame) (L : listener)
    (hpc : y.dials[i]? = some (.locked f))
    (hL : y.st.listenerObjs[f.l]? = some L) (hlast : L.accepters.getLast? = some a) :
    y.step (.dial i) =
      { y with
        st := { y.st with
          listenerObjs := y.st.listenerObjs.set f.l { L with accepters := L.accepters.dropLast } },
        dials := y.dials.set i (.popped f a),
        pops := y.pops ++ [(i, a)] } := by
  simp only [Sys.step, hpc, dialPop_eq y.st f.l L hL, hlast]

theorem step_dial_popped (y : Sys) (i a : Nat) (f : dialFrame) (hinv : Inv y)
    (hpc : y.dials[i]? = some (.popped f a)) :
    ∃ (cs : List conn) (A : accepter), y.st.accepterObjs[a]? = some A ∧
      y.step (.dial i) =
        { y with
          st := { y.st with
            conns := cs, accepterObjs := y.st.accepterObjs.set a { A with done := true } },
          dials := y.dials.set i (.returned (.ok f.conn)),
          fires := y.fires ++ [a] } := by
  obtain ⟨_, hfc, A, hA, hd, hac⟩ := hinv.pp i f a hpc
  obtain ⟨cs, _, hw⟩ := dialWire_eq y.st f a A hA hd hfc hac
  exact ⟨cs, A, hA, by simp only [Sys.step, hpc, hw]⟩

theorem Inv2_queue_nonempty (address : String) (l : Nat) (q0 : List Nat) (y : Sys)
    (h : Inv2 address l q0 y) (i : Nat) (f : dialFrame)
    (hpc : y.dials[i]? = some (.locked f)) (Lc : listener)
    (hq : Lc.accepters ++ (y.pops.map Prod.snd).reverse = q0) : Lc.accepters ≠ [] := by
  intro hnil
  have hi : i < q0.length := by rw [← h.len]; exact getElem?_lt_of_eq_some hpc
  have hlt : ∀ j ∈ y.pops.map Prod.fst, j < q0.length := by
    intro j hj
    obtain ⟨⟨j', a⟩, hja, hj'⟩ := List.mem_map.mp hj
    simp only at hj'
    subst hj'
    rw [← h.len]
    rcases h.pfr j' a hja with ⟨_, c, hc⟩ | ⟨g, hg⟩
    · exact getElem?_lt_of_eq_some hc
    · exact getElem?_lt_of_eq_some hg
  have hne : i ∉ y.pops.map Prod.fst := by
    intro hj
    obtain ⟨⟨j', a⟩, hja, hj'⟩ := List.mem_map.mp hj
    simp only at hj'
    subst hj'
    rcases h.pfr j' a hja with ⟨_, c, hc⟩ | ⟨g, hg⟩
    · rw [hpc] at hc; cases hc
    · rw [hpc] at hg; cases hg
  have hlen := length_lt_of_nodup_of_missing _ q0.length i h.pfnd hlt hi hne
  rw [hnil, List.nil_append] at hq
  have : q0.length = y.pops.length := by
    rw [← hq]; simp
  rw [List.length_map] at hlen
  omega

theorem Inv2_dial_step (address : String) (l : Nat) (q0 : List Nat) (y : Sys)
    (h : Inv2 address l q0 y) (i : Nat) (pc : dialPC)
    (hpc : y.dials[i]? = some pc) (hr : pc.rank < 3) :
    Inv2 address l q0 (y.step (.dial i)) ∧
      ∃ pc', (y.step (.dial i)).dials = y.dials.set i pc' ∧ pc'.rank = pc.rank + 1 := by
  have hinv' : Inv (y.step (.dial i)) := Inv_step y (.dial i) h.inv
  have hnot : ∀ (j a : Nat), (j, a) ∈ y.pops → pc.rank < 2 → j ≠ i := by
    intro j a hja hlt e
    subst e
    rcases h.pfr j a hja with ⟨_, c, hc⟩ | ⟨g, hg⟩
    · rw [hpc] at hc; cases hc; simp [dialPC.rank] at hlt
    · rw [hpc] at hg; cases hg; simp [dialPC.rank] at hlt
  rcases h.pcs i pc hpc with hs | ⟨f, hf, hfl⟩ | ⟨f, a, hf⟩ | ⟨c, hc⟩
  · -- at its entry: the lookup finds the listener
    subst hs
    have hstep := step_dial_start y i l address hpc h.reg
    refine ⟨?_, .locked ⟨y.st.conns.length, y.st.pipes.length, l⟩, by rw [hstep], rfl⟩
    rw [hstep] at hinv' ⊢
    refine ⟨hinv', h.reg, by simpa using h.len, ?_, h.acc, h.queue, h.pfnd, ?_, ?_⟩
    · intro j pc' hj
      rcases getElem?_set_cases hj with ⟨_, h2⟩ | ⟨_, h2⟩
      · right; left; exact ⟨_, h2, rfl⟩
      · exact h.pcs j pc' h2
    · intro j a hja
      have hji := hnot j a hja (by simp [dialPC.rank])
      rcases h.pfr j a hja with ⟨h1, c, hc⟩ | ⟨g, hg⟩
      · left; exact ⟨h1, c, getElem?_set_of_ne hji hc⟩
      · right; exact ⟨g, getElem?_set_of_ne hji hg⟩
    · intro j c hj
      rcases getElem?_set_cases hj with ⟨_, h2⟩ | ⟨_, h2⟩
      · cases h2
      · exact h.rpf j c h2
  · -- in the loop: the queue is not empty, so the pop is made
    subst hf
    obtain ⟨Lc, hLc, hq⟩ := h.queue
    have hne := Inv2_queue_nonempty address l q0 y h i f hpc Lc hq
    have hlast : Lc.accepters.getLast? = some (Lc.accepters.getLast hne) :=
      List.getLast?_eq_getLast _ hne
    rw [← hfl] at hLc
    have hstep := step_dial_locked y i _ f Lc hpc hLc hlast
    refine ⟨?_, .popped f (Lc.accepters.getLast hne), by rw [hstep], rfl⟩
    rw [hstep] at hinv' ⊢
    have hl : f.l < y.st.listenerObjs.length := getElem?_lt_of_eq_some hLc
    refine ⟨hinv', h.reg, by simpa using h.len, ?_, h.acc, ?_, ?_, ?_, ?_⟩
    · intro j pc' hj
      rcases getElem?_set_cases hj with ⟨_, h2⟩ | ⟨_, h2⟩
      · right; right; left; exact ⟨_, _, h2⟩
      · exact h.pcs j pc' h2
    · refine ⟨{ Lc with accepters := Lc.accepters.dropLast }, ?_, ?_⟩
      · rw [← hfl]; exact getElem?_set_self_of_lt hl
      · simp only [List.map_append, List.map_cons, List.map_nil, List.reverse_append,
          List.reverse_cons, List.reverse_nil, List.nil_append, List.singleton_append]
        rw [← hq]
        conv_rhs => rw [← List.dropLast_append_getLast hne]
        simp
    · simp only [List.map_append, List.map_cons, List.map_nil]
      refine List.nodup_append.mpr ⟨h.pfnd, List.nodup_singleton i, ?_⟩
      intro j hj1 hj2
      rw [List.mem_singleton.mp hj2] at hj1
      obtain ⟨⟨j', a⟩, hja, hj'⟩ := List.mem_map.mp hj1
      simp only at hj'
      subst hj'
      exact hnot j' a hja (by simp [dialPC.rank]) rfl
    · intro j a hja
      rcases List.mem_append.mp hja with hja | hja
      · have hji := hnot j a hja (by simp [dialPC.rank])
        rcases h.pfr j a hja with ⟨h1, c, hc⟩ | ⟨g, hg⟩
        · left; exact ⟨h1, c, getElem?_set_of_ne hji hc⟩
        · right; exact ⟨g, getElem?_set_of_ne hji hg⟩
      · have := List.mem_singleton.mp hja
        cases this
        right
        exact ⟨f, getElem?_set_self_of_lt (getElem?_lt_of_eq_some hpc)⟩
    · intro j c hj
      rcases getElem?_set_cases hj with ⟨_, h2⟩ | ⟨_, h2⟩
      · cases h2
      · obtain ⟨a, ha⟩ := h.rpf j c h2
        exact ⟨a, List.mem_append.mpr (Or.inl ha)⟩
  · -- holding an accepter: the wiring is done and the call returns
    subst hf
    obtain ⟨cs, A, hA, hstep⟩ := step_dial_popped y i a f h.inv hpc
    obtain ⟨hia, _, _⟩ := h.inv.pp i f a hpc
    refine ⟨?_, .returned (.ok f.conn), by rw [hstep], rfl⟩
    rw [hstep] at hinv' ⊢
    refine ⟨hinv', h.reg, by simpa using h.len, ?_, h.acc, h.queue, h.pfnd, ?_, ?_⟩
    · intro j pc' hj
      rcases getElem?_set_cases hj with ⟨_, h2⟩ | ⟨_, h2⟩
      · right; right; right; exact ⟨_, h2⟩
      · exact h.pcs j pc' h2
    · intro j b hjb
      by_cases hji : j = i
      · subst hji
        have hba : b = a := fst_unique_of_nodup h.pfnd hjb hia
        subst hba
        left
        exact ⟨List.mem_append.mpr (Or.inr (List.mem_singleton.mpr rfl)), f.conn,
          getElem?_set_self_of_lt (getElem?_lt_of_eq_some hpc)⟩
      · rcases h.pfr j b hjb with ⟨h1, c, hc⟩ | ⟨g, hg⟩
        · left
          exact ⟨List.mem_append.mpr (Or.inl h1), c, getElem?_set_of_ne hji hc⟩
        · right; exact ⟨g, getElem?_set_of_ne hji hg⟩
    · intro j c hj
      rcases getElem?_set_cases hj with ⟨h1, _⟩ | ⟨_, h2⟩
      · rw [h1]; exact ⟨a, hia⟩
      · exact h.rpf j c h2
  · subst hc
    simp [dialPC.rank] at hr

theorem Inv2_step (address : String) (l : Nat) (q0 : List Nat) (y : Sys) (act : Act)
    (h : Inv2 address l q0 y) :
    Inv2 address l q0 (y.step act) ∧ ∀ i, y.rank i ≤ (y.step act).rank i := by
  have hrank_set : ∀ (i : Nat) (pc pc' : dialPC), y.dials[i]? = some pc →
      pc.rank ≤ pc'.rank → ∀ (z : Sys), z.dials = y.dials.set i pc' → ∀ j, y.rank j ≤ z.rank j := by
    intro i pc pc' hpc hle z hz j
    unfold Sys.rank
    rw [hz]
    by_cases hji : j = i
    · subst hji
      rw [getElem?_set_self_of_lt (getElem?_lt_of_eq_some hpc), hpc]
      exact hle
    · rw [List.getElem?_set]
      simp [Ne.symm hji]
  cases act with
  | dial i =>
    cases hpc : y.dials[i]? with
    | none =>
      have : y.step (.dial i) = y := by simp only [Sys.step, hpc]
      rw [this]; exact ⟨h, fun _ => Nat.le_refl _⟩
    | some pc =>
      by_cases hr : pc.rank < 3
      · obtain ⟨h1, pc', h2, h3⟩ := Inv2_dial_step address l q0 y h i pc hpc hr
        exact ⟨h1, hrank_set i pc pc' hpc (by omega) _ h2⟩
      · have : y.step (.dial i) = y := by
          cases pc with
          | start a => simp [dialPC.rank] at hr
          | locked f => simp [dialPC.rank] at hr
          | popped f a => simp [dialPC.rank] at hr
          | returned res => simp only [Sys.step, hpc]
          | crashed => simp only [Sys.step, hpc]
        rw [this]; exact ⟨h, fun _ => Nat.le_refl _⟩
  | accept j k =>
    cases hpc : y.accepts[j]? with
    | none =>
      have : y.step (.accept j k) = y := by simp only [Sys.step, hpc]
      rw [this]; exact ⟨h, fun _ => Nat.le_refl _⟩
    | some pc =>
      cases pc with
      | start l' => exact absurd hpc (h.acc j l')
      | waiting l' a =>
        have hstep : y.step (.accept j k) =
            match (acceptSelect y.st l' a)[k]? with
            | some res => { y with accepts := y.accepts.set j (.returned res) }
            | none => y := by
          simp only [Sys.step, hpc]
        rw [hstep]
        cases (acceptSelect y.st l' a)[k]? with
        | none => exact ⟨h, fun _ => Nat.le_refl _⟩
        | some res =>
          refine ⟨⟨?_, h.reg, h.len, h.pcs, ?_, h.queue, h.pfnd, h.pfr, h.rpf⟩,
            fun _ => Nat.le_refl _⟩
          · exact ⟨h.inv.reg, h.inv.qv, h.inv.qnd, h.inv.qdj, h.inv.qp, h.inv.pnd, h.inv.pv,
              h.inv.lk, h.inv.pp, h.inv.fd, h.inv.fnd, h.inv.nc⟩
          · intro j' l'' hj'
            rcases getElem?_set_cases hj' with ⟨_, h2⟩ | ⟨_, h2⟩
            · cases h2
            · exact h.acc j' l'' h2
      | returned res =>
        have : y.step (.accept j k) = y := by simp only [Sys.step, hpc]
        rw [this]; exact ⟨h, fun _ => Nat.le_refl _⟩
      | crashed =>
        have : y.step (.accept j k) = y := by simp only [Sys.step, hpc]
        rw [this]; exact ⟨h, fun _ => Nat.le_refl _⟩

theorem rank_step_dial (address : String) (l : Nat) (q0 : List Nat) (y : Sys)
    (h : Inv2 address l q0 y) (i : Nat) (hi : i < y.dials.length) :
    min 3 (y.rank i + 1) ≤ (y.step (.dial i)).rank i := by
  obtain ⟨pc, hpc⟩ : ∃ pc, y.dials[i]? = some pc := ⟨_, List.getElem?_eq_getElem hi⟩
  by_cases hr : pc.rank < 3
  · obtain ⟨_, pc', h2, h3⟩ := Inv2_dial_step address l q0 y h i pc hpc hr
    unfold Sys.rank
    rw [h2, getElem?_set_self_of_lt hi, hpc]
    simp only
    omega
  · have := (Inv2_step address l q0 y (.dial i) h).2 i
    have hy : y.rank i = pc.rank := by unfold Sys.rank; rw [hpc]
    omega

theorem Inv2_run (address : String) (l : Nat) (q0 : List Nat) (sched : List Act) (y : Sys)
    (h : Inv2 address l q0 y) :
    Inv2 address l q0 (y.run sched) ∧
      ∀ i, i < q0.length → min 3 (y.rank i + sched.count (.dial i)) ≤ (y.run sched).rank i := by
  induction sched generalizing y with
  | nil =>
    refine ⟨h, ?_⟩
    intro i _
    simp only [List.count_nil, Nat.add_zero, Sys.run, List.foldl_nil]
    exact Nat.min_le_right _ _
  | cons act sched ih =>
    obtain ⟨h1, hmono⟩ := Inv2_step address l q0 y act h
    obtain ⟨h2, hrk⟩ := ih (y.step act) h1
    refine ⟨h2, ?_⟩
    intro i hi
    have := hrk i hi
    have hrun : (y.run (act :: sched)) = (y.step act).run sched := rfl
    rw [hrun]
    by_cases hact : act = .dial i
    · subst hact
      have hstep := rank_step_dial address l q0 y h i (by rw [h.len]; exact hi)
      rw [List.count_cons_self]
      omega
    · rw [List.count_cons_of_ne (fun e => hact e.symm)]
      have := hmono i
      omega

theorem Inv2_dialing (s : State) (address : String) (l : Nat) (L : listener)
    (hwf : WFState s) (hreg : mapGet s.listeners ⟨network, address⟩ = some l)
    (hL : s.listenerObjs[l]? = some L) :
    Inv2 address l L.accepters (Sys.dialing s address L.accepters.length l L.accepters) := by
  have hd : ∀ (i : Nat) (pc : dialPC),
      (List.replicate L.accepters.length (dialPC.start address))[i]? = some pc →
      pc = .start address := by
    intro i pc hi
    have hmem : pc ∈ List.replicate L.accepters.length (dialPC.start address) :=
      List.getElem?_mem hi
    exact (List.mem_replicate.mp hmem).2
  refine ⟨Inv_of_WFState s _ _ hwf (fun i pc hi => ⟨address, hd i pc hi⟩), hreg, by
    simp [Sys.dialing], ?_, ?_, ⟨L, hL, by simp [Sys.dialing]⟩, List.nodup_nil, ?_, ?_⟩
  · intro i pc hi
    left; exact hd i pc hi
  · intro j l' hj
    have hmem : acceptPC.start l' ∈ L.accepters.map (fun a => acceptPC.waiting l a) :=
      List.getElem?_mem hj
    obtain ⟨a, _, ha⟩ := List.mem_map.mp hmem
    cases ha
  · intro i a hia
    cases hia
  · intro i c hi
    have := hd i _ hi
    cases this

/-- C5: in every interleaving of the atomic steps of any Dial and Accept calls, started
in a well-formed state, no accepter is popped twice (the popped accepters are pairwise
distinct), the `done` channel of an accepter is closed at most once (the fired accepters
are pairwise distinct, each was popped, and no Dial panics on a closed channel).  In
particular, with N accepters pending on the listener of an address and N Dial calls to
it, once every call has been scheduled for its three steps each Dial has returned a
conn, the calls took pairwise distinct accepters, namely the N pending ones, latest
first, every one of them was fired, and the queue is empty. -/
theorem rendezvous_matches_each_accepter_once :
    (∀ (s : State) (dials : List dialPC) (accepts : List acceptPC) (sched : List Act),
      WFState s →
      (∀ (i : Nat) (pc : dialPC), dials[i]? = some pc → ∃ address, pc = .start address) →
      ((Sys.run ⟨s, dials, accepts, [], []⟩ sched).pops.map Prod.snd).Nodup ∧
      (Sys.run ⟨s, dials, accepts, [], []⟩ sched).fires.Nodup ∧
      (∀ a ∈ (Sys.run ⟨s, dials, accepts, [], []⟩ sched).fires,
        a ∈ (Sys.run ⟨s, dials, accepts, [], []⟩ sched).pops.map Prod.snd) ∧
      (∀ i : Nat, (Sys.run ⟨s, dials, accepts, [], []⟩ sched).dials[i]? ≠ some .crashed)) ∧
    (∀ (s : State) (address : String) (l : Nat) (L : listener) (sched : List Act),
      WFState s → mapGet s.listeners ⟨network, address⟩ = some l →
      s.listenerObjs[l]? = some L →
      (∀ i, i < L.accepters.length → 3 ≤ sched.count (.dial i)) →
      (∀ i, i < L.accepters.length →
        ∃ c : Nat, ((Sys.dialing s address L.accepters.length l L.accepters).run sched).dials[i]? =
          some (.returned (.ok c))) ∧
      (((Sys.dialing s address L.accepters.length l L.accepters).run sched).pops.map
        Prod.fst).Perm (List.range L.accepters.length) ∧
      ((Sys.dialing s address L.accepters.length l L.accepters).run sched).pops.map Prod.snd =
        L.accepters.reverse ∧
      (((Sys.dialing s address L.accepters.length l L.accepters).run sched).pops.map
        Prod.snd).Nodup ∧
      ((Sys.dialing s address L.accepters.length l L.accepters).run sched).fires.Perm
        L.accepters ∧
      ∃ Lz : listener,
        ((Sys.dialing s address L.accepters.length l L.accepters).run sched).st.listenerObjs[l]? =
          some Lz ∧ Lz.accepters = []) := by
  constructor
  · intro s dials accepts sched hwf hd
    have hinv := Inv_run sched _ (Inv_of_WFState s dials accepts hwf hd)
    exact ⟨hinv.pnd, hinv.fnd, fun a ha => (hinv.fd a ha).2, hinv.nc⟩
  · intro s address l L sched hwf hreg hL hfair
    obtain ⟨hI, hrk⟩ := Inv2_run address l L.accepters sched _ (Inv2_dialing s address l L hwf hreg hL)
    generalize (Sys.dialing s address L.accepters.length l L.accepters).run sched = z at hI hrk
    have hall : ∀ i, i < L.accepters.length →
        ∃ c : Nat, z.dials[i]? = some (.returned (.ok c)) := by
      intro i hi
      have h3 := hrk i hi
      have hc := hfair i hi
      have hz : 3 ≤ z.rank i := by
        have : min 3 (Sys.rank (Sys.dialing s address L.accepters.length l L.accepters) i +
            List.count (Act.dial i) sched) = 3 := by omega
        omega
      obtain ⟨pc, hpc⟩ : ∃ pc, z.dials[i]? = some pc :=
        ⟨_, List.getElem?_eq_getElem (by rw [hI.len]; exact hi)⟩
      unfold Sys.rank at hz
      rw [hpc] at hz
      rcases hI.pcs i pc hpc with h1 | ⟨f, h1, _⟩ | ⟨f, a, h1⟩ | ⟨c, h1⟩
      · subst h1; simp [dialPC.rank] at hz
      · subst h1; simp [dialPC.rank] at hz
      · subst h1; simp [dialPC.rank] at hz
      · exact ⟨c, by rw [hpc, h1]⟩
    have hfst_lt : ∀ (j a : Nat), (j, a) ∈ z.pops → j < L.accepters.length := by
      intro j a hja
      rw [← hI.len]
      rcases hI.pfr j a hja with ⟨_, c, hc⟩ | ⟨g, hg⟩
      · exact getElem?_lt_of_eq_some hc
      · exact getElem?_lt_of_eq_some hg
    have hperm : (z.pops.map Prod.fst).Perm (List.range L.accepters.length) := by
      refine (List.perm_ext_iff_of_nodup hI.pfnd (List.nodup_range _)).mpr ?_
      intro j
      constructor
      · intro hj
        obtain ⟨⟨j', a⟩, hja, hj'⟩ := List.mem_map.mp hj
        simp only at hj'
        subst hj'
        exact List.mem_range.mpr (hfst_lt j' a hja)
      · intro hj
        obtain ⟨c, hc⟩ := hall j (List.mem_range.mp hj)
        obtain ⟨a, ha⟩ := hI.rpf j c hc
        exact List.mem_map.mpr ⟨(j, a), ha, rfl⟩
    have hlen : z.pops.length = L.accepters.length := by
      have := hperm.length_eq
      simpa using this
    obtain ⟨Lz, hLz, hq⟩ := hI.queue
    have hnil : Lz.accepters = [] := by
      have := congrArg List.length hq
      simp only [List.length_append, List.length_reverse, List.length_map, hlen] at this
      exact List.length_eq_zero.mp (by omega)
    have hsnd : z.pops.map Prod.snd = L.accepters.reverse := by
      rw [hnil, List.nil_append] at hq
      rw [← hq, List.reverse_reverse]
    have hfires : z.fires.Perm L.accepters := by
      refine List.Perm.trans ?_ (List.reverse_perm L.accepters)
      rw [← hsnd]
      refine (List.perm_ext_iff_of_nodup hI.inv.fnd hI.inv.pnd).mpr ?_
      intro a
      constructor
      · intro ha
        exact (hI.inv.fd a ha).2
      · intro ha
        obtain ⟨⟨j, a'⟩, hja, ha'⟩ := List.mem_map.mp ha
        simp only at ha'
        subst ha'
        rcases hI.pfr j a' hja with ⟨h1, _⟩ | ⟨g, hg⟩
        · exact h1
        · obtain ⟨c, hc⟩ := hall j (hfst_lt j a' hja)
          rw [hg] at hc
          cases hc
    exact ⟨hall, hperm, hsnd, hI.inv.pnd, hfires, Lz, hLz, hnil⟩

theorem pendingState2_reached : acceptStart pendingState 0 = .ret 1 pendingState2 := by
  decide

theorem WFState_pendingState2 : WFState pendingState2 :=
  WFState_acceptStart _ _ 0 1 WFState_pendingState pendingState2_reached

/-- Witness for C5: two `Accept` calls pending on ":9999" and two `Dial` calls whose
steps interleave; both calls return, the second accepter is popped first, and the queue
ends empty. -/
theorem rendezvous_matches_each_accepter_once_witness :
    (∀ i, i < 2 →
      ∃ c : Nat, ((Sys.dialing pendingState2 ":9999" 2 0 [0, 1]).run
        [.dial 0, .dial 1, .dial 1, .accept 0 0, .dial 0, .dial 1, .dial 0]).dials[i]? =
          some (.returned (.ok c))) ∧
    ((Sys.dialing pendingState2 ":9999" 2 0 [0, 1]).run
      [.dial 0, .dial 1, .dial 1, .accept 0 0, .dial 0, .dial 1, .dial 0]).pops.map Prod.snd =
        [1, 0] ∧
    ∃ Lz : listener, ((Sys.dialing pendingState2 ":9999" 2 0 [0, 1]).run
      [.dial 0, .dial 1, .dial 1, .accept 0 0, .dial 0, .dial 1, .dial 0]).st.listenerObjs[0]? =
        some Lz ∧ Lz.accepters = [] :=
  match rendezvous_matches_each_accepter_once.2 pendingState2 ":9999" 0
      ⟨⟨network, ":9999"⟩, [0, 1], false, 0⟩
      [.dial 0, .dial 1, .dial 1, .accept 0 0, .dial 0, .dial 1, .dial 0]
      WFState_pendingState2 (by decide) (by decide)
      (fun i hi => by
        have h2 : i < 2 := hi
        interval_cases i <;> decide) with
  | ⟨h1, _, h3, _, _, h6⟩ => ⟨h1, h3, h6⟩

/-! ## The closed flag and the closed signal -/

theorem FlagInv_init : FlagInv State.init := by
  intro l L h
  simp [State.init] at h

theorem FlagInv_Listen (s : State) (address : String) (h : FlagInv s) :
    FlagInv (Listen s address).2 := by
  have hobj : ∀ (l : Nat) (L : listener),
      (s.listenerObjs ++ [listener.mk ⟨network, address⟩ [] false 0])[l]? = some L →
      (L.closed = 0 ↔ L.done = false) := by
    intro l L hL
    rcases getElem?_append_one_cases hL with ⟨_, h2⟩ | ⟨_, h2⟩
    · rw [h2]; simp
    · exact h l L h2
  rw [Listen_eq]
  cases mapGet s.listeners ⟨network, address⟩ <;> exact hobj

theorem FlagInv_acceptStart (s s' : State) (l a : Nat) (h : FlagInv s)
    (hs : acceptStart s l = .ret a s') : FlagInv s' := by
  cases hL : s.listenerObjs[l]? with
  | none => simp [acceptStart, hL] at hs
  | some L =>
    rw [acceptStart_eq s l L hL] at hs
    cases hs
    intro l' L' hL'
    rcases getElem?_set_cases hL' with ⟨h1, h2⟩ | ⟨_, h2⟩
    · rw [h2]; exact h l L hL
    · exact h l' L' h2

theorem FlagInv_dialStart (s : State) (address : String) (h : FlagInv s) :
    FlagInv (dialStart s address).2 := by
  rw [dialStart_eq]
  exact h

theorem FlagInv_dialPop (s s' : State) (l a : Nat) (h : FlagInv s)
    (hs : dialPop s l = .ret a s') : FlagInv s' := by
  cases hL : s.listenerObjs[l]? with
  | none => simp [dialPop, hL] at hs
  | some L =>
    rw [dialPop_eq s l L hL] at hs
    cases hlast : L.accepters.getLast? with
    | none => rw [hlast] at hs; cases hs
    | some b =>
      rw [hlast] at hs
      cases hs
      intro l' L' hL'
      rcases getElem?_set_cases hL' with ⟨_, h2⟩ | ⟨_, h2⟩
      · rw [h2]; exact h l L hL
      · exact h l' L' h2

theorem FlagInv_listener_Close (s s' : State) (l : Nat) (e : Option error) (h : FlagInv s)
    (hq : ∀ (L : listener), s.listenerObjs[l]? = some L → ∀ a ∈ L.accepters,
      ∃ A C, s.accepterObjs[a]? = some A ∧ s.conns[A.conn]? = some C)
    (hs : listener.Close s l = .ret e s') : FlagInv s' := by
  cases hL : s.listenerObjs[l]? with
  | none => simp [listener.Close, hL] at hs
  | some L =>
    rw [listener_Close_eq s l L hL (h l L hL).mp] at hs
    obtain ⟨s2, hrun, hmore, _⟩ := closeAccepters_spec L.accepters
      { s with
        listeners := mapDelete s.listeners L.laddr,
        listenerObjs := s.listenerObjs.set l
          { laddr := L.laddr, accepters := [],
            done := if L.closed = 0 then true else L.done,
            closed := if L.closed = 0 then 1 else L.closed } }
      (hq L hL)
    rw [hrun] at hs
    cases hs
    intro l' L' hL'
    rw [hmore.listenerObjs] at hL'
    rcases getElem?_set_cases hL' with ⟨_, h2⟩ | ⟨_, h2⟩
    · rw [h2]
      by_cases h0 : L.closed = 0
      · simp [h0]
      · simpa [h0] using h l L hL
    · exact h l' L' h2

/-! ## Queued accepters stay as Accept built them -/

theorem dialWire_frame (s : State) (f : dialFrame) (a : Nat) (A : accepter)
    (hA : s.accepterObjs[a]? = some A) (hd : A.done = false)
    (hfc : f.conn < s.conns.length) (hac : A.conn < s.conns.length) :
    ∃ cs : List conn, cs.length = s.conns.length ∧
      (∀ c : Nat, c ≠ f.conn → c ≠ A.conn → cs[c]? = s.conns[c]?) ∧
      dialWire s f a = .ret f.conn
        { s with conns := cs, accepterObjs := s.accepterObjs.set a { A with done := true } } := by
  obtain ⟨C, hC⟩ : ∃ C, s.conns[f.conn]? = some C := ⟨_, List.getElem?_eq_getElem hfc⟩
  have hlen : A.conn <
      (s.conns.set f.conn { C with r := some A.reader, raddr := C.laddr }).length := by
    simpa using hac
  obtain ⟨AC, hAC⟩ : ∃ AC,
      (s.conns.set f.conn { C with r := some A.reader, raddr := C.laddr })[A.conn]? = some AC :=
    ⟨_, List.getElem?_eq_getElem hlen⟩
  refine ⟨(s.conns.set f.conn { C with r := some A.reader, raddr := C.laddr }).set A.conn
    { AC with r := some f.r, raddr := C.laddr }, by simp, ?_, ?_⟩
  · intro c h1 h2
    rw [List.getElem?_set, List.getElem?_set]
    simp [Ne.symm h1, Ne.symm h2]
  · unfold dialWire
    simp only [hA, hC, hAC, hd]
    rfl

theorem getElem?_set_done {xs : List accepter} {a b : Nat} {A B' : accepter}
    (hA : xs[a]? = some A) (h : (xs.set a { A with done := true })[b]? = some B') :
    ∃ B : accepter, xs[b]? = some B ∧ B'.conn = B.conn ∧ B'.reader = B.reader ∧
      (b ≠ a → B' = B) := by
  rcases getElem?_set_cases h with ⟨h1, h2⟩ | ⟨h1, h2⟩
  · subst h1
    exact ⟨A, hA, by rw [h2], by rw [h2], fun e => absurd rfl e⟩
  · exact ⟨B', h2, rfl, rfl, fun _ => rfl⟩

theorem InvB_dialStart (y : Sys) (i : Nat) (address : String) (h : InvB y)
    (hpc : y.dials[i]? = some (.start address)) : InvB (y.step (.dial i)) := by
  have hinv' := Inv_step y (.dial i) h.inv
  have hstep : y.step (.dial i) =
      match mapGet y.st.listeners ⟨network, address⟩ with
      | none =>
        { y with
          st := { y.st with
            pipes := y.st.pipes ++ [pipe.fresh],
            conns := y.st.conns ++ [⟨none, some y.st.pipes.length, ⟨network, address⟩, addr.zero⟩] },
          dials := y.dials.set i (.returned (.error "connection refused")) }
      | some l =>
        { y with
          st := { y.st with
            pipes := y.st.pipes ++ [pipe.fresh],
            conns := y.st.conns ++ [⟨none, some y.st.pipes.length, ⟨network, address⟩, addr.zero⟩] },
          dials := y.dials.set i (.locked ⟨y.st.conns.length, y.st.pipes.length, l⟩) } := by
    simp only [Sys.step, hpc, dialStart_eq]
    cases mapGet y.st.listeners ⟨network, address⟩ <;> rfl
  have hab : AcceptBuilt { y.st with
      pipes := y.st.pipes ++ [pipe.fresh],
      conns := y.st.conns ++ [⟨none, some y.st.pipes.length, ⟨network, address⟩, addr.zero⟩] } := by
    refine ⟨?_, h.ab.inj, ?_⟩
    · intro a A hA
      obtain ⟨h1, h2⟩ := h.ab.alloc a A hA
      simp only [List.length_append, List.length_singleton]
      exact ⟨by omega, by omega⟩
    · intro l L a A hL ha hA
      obtain ⟨⟨AC, h1, h2, h3, h4⟩, P, h5, h6, h7⟩ := h.ab.built l L a A hL ha hA
      exact ⟨⟨AC, getElem?_append_one_of_some h1, h2, h3, h4⟩,
        P, getElem?_append_one_of_some h5, h6, h7⟩
  rw [hstep] at hinv' ⊢
  cases hreg : mapGet y.st.listeners ⟨network, address⟩ with
  | none =>
    rw [hreg] at hinv'
    refine ⟨hinv', hab, ?_⟩
    intro j f hj a A hA
    have hold : y.dials[j]? = some (.locked f) ∨ ∃ b : Nat, y.dials[j]? = some (.popped f b) := by
      rcases hj with hj | ⟨b, hj⟩
      · rcases getElem?_set_cases hj with ⟨_, h2⟩ | ⟨_, h2⟩
        · cases h2
        · exact Or.inl h2
      · rcases getElem?_set_cases hj with ⟨_, h2⟩ | ⟨_, h2⟩
        · cases h2
        · exact Or.inr ⟨b, h2⟩
    exact h.fr j f hold a A hA
  | some l =>
    rw [hreg] at hinv'
    refine ⟨hinv', hab, ?_⟩
    intro j f hj a A hA
    have hcases : f.conn = y.st.conns.length ∨
        (y.dials[j]? = some (.locked f) ∨ ∃ b : Nat, y.dials[j]? = some (.popped f b)) := by
      rcases hj with hj | ⟨b, hj⟩
      · rcases getElem?_set_cases hj with ⟨_, h2⟩ | ⟨_, h2⟩
        · cases h2; exact Or.inl rfl
        · exact Or.inr (Or.inl h2)
      · rcases getElem?_set_cases hj with ⟨_, h2⟩ | ⟨_, h2⟩
        · cases h2
        · exact Or.inr (Or.inr ⟨b, h2⟩)
    rcases hcases with hnew | hold
    · have := (h.ab.alloc a A hA).1
      omega
    · exact h.fr j f hold a A hA

theorem InvB_dialPop (y : Sys) (i : Nat) (f : dialFrame) (h : InvB y)
    (hpc : y.dials[i]? = some (.locked f)) : InvB (y.step (.dial i)) := by
  have hinv' := Inv_step y (.dial i) h.inv
  obtain ⟨_, hfl⟩ := h.inv.lk i f hpc
  obtain ⟨L, hL⟩ : ∃ L, y.st.listenerObjs[f.l]? = some L :=
    ⟨_, List.getElem?_eq_getElem hfl⟩
  cases hlast : L.accepters.getLast? with
  | none =>
    have : y.step (.dial i) = y := by
      simp only [Sys.step, hpc, dialPop_eq y.st f.l L hL, hlast]
    rw [this]; exact h
  | some a =>
    have hstep := step_dial_locked y i a f L hpc hL hlast
    rw [hstep] at hinv' ⊢
    refine ⟨hinv', ⟨h.ab.alloc, h.ab.inj, ?_⟩, ?_⟩
    · intro l' L' b B hL' hb hB
      rcases getElem?_set_cases hL' with ⟨h1, h2⟩ | ⟨_, h2⟩
      · rw [h2] at hb ⊢
        exact h.ab.built f.l L b B hL (mem_of_mem_dropLast hb) hB
      · exact h.ab.built l' L' b B h2 hb hB
    · intro j g hj b B hB
      have hold : y.dials[j]? = some (.locked g) ∨
          ∃ c : Nat, y.dials[j]? = some (.popped g c) := by
        rcases hj with hj | ⟨c, hj⟩
        · rcases getElem?_set_cases hj with ⟨_, h2⟩ | ⟨_, h2⟩
          · cases h2
          · exact Or.inl h2
        · rcases getElem?_set_cases hj with ⟨h1, h2⟩ | ⟨_, h2⟩
          · cases h2; rw [h1]; exact Or.inl hpc
          · exact Or.inr ⟨c, h2⟩
      exact h.fr j g hold b B hB

theorem InvB_dialWire (y : Sys) (i : Nat) (f : dialFrame) (a : Nat) (h : InvB y)
    (hpc : y.dials[i]? = some (.popped f a)) : InvB (y.step (.dial i)) := by
  have hinv' := Inv_step y (.dial i) h.inv
  obtain ⟨hia, hfc, A, hA, hd, hac⟩ := h.inv.pp i f a hpc
  obtain ⟨cs, hcs, hframe, hw⟩ := dialWire_frame y.st f a A hA hd hfc hac
  have hap : a ∈ y.pops.map Prod.snd := List.mem_map.mpr ⟨(i, a), hia, rfl⟩
  have hstep : y.step (.dial i) =
      { y with
        st := { y.st with
          conns := cs, accepterObjs := y.st.accepterObjs.set a { A with done := true } },
        dials := y.dials.set i (.returned (.ok f.conn)),
        fires := y.fires ++ [a] } := by
    simp only [Sys.step, hpc, hw]
  rw [hstep] at hinv' ⊢
  refine ⟨hinv', ⟨?_, ?_, ?_⟩, ?_⟩
  · intro b B' hB'
    obtain ⟨B, hB, h1, h2, _⟩ := getElem?_set_done hA hB'
    have := h.ab.alloc b B hB
    rw [h1, h2, hcs]
    exact this
  · intro b b' B1' B2' hB1' hB2' hne
    obtain ⟨B1, hB1, h1, _, _⟩ := getElem?_set_done hA hB1'
    obtain ⟨B2, hB2, h2, _, _⟩ := getElem?_set_done hA hB2'
    rw [h1, h2]
    exact h.ab.inj b b' B1 B2 hB1 hB2 hne
  · intro l L b B' hL hb hB'
    have hba : b ≠ a := fun e => h.inv.qp l L b hL hb (e ▸ hap)
    obtain ⟨B, hB, _, _, h3⟩ := getElem?_set_done hA hB'
    have hBB : B' = B := h3 hba
    subst hBB
    obtain ⟨⟨AC, h1, h2, h3', h4⟩, hP⟩ := h.ab.built l L b B' hL hb hB
    have hc1 : B'.conn ≠ f.conn := h.fr i f (Or.inr ⟨a, hpc⟩) b B' hB
    have hc2 : B'.conn ≠ A.conn := h.ab.inj b a B' A hB hA hba
    exact ⟨⟨AC, by rw [hframe _ hc1 hc2]; exact h1, h2, h3', h4⟩, hP⟩
  · intro j g hj b B' hB'
    obtain ⟨B, hB, h1, _, _⟩ := getElem?_set_done hA hB'
    have hold : y.dials[j]? = some (.locked g) ∨
        ∃ c : Nat, y.dials[j]? = some (.popped g c) := by
      rcases hj with hj | ⟨c, hj⟩
      · rcases getElem?_set_cases hj with ⟨_, h2⟩ | ⟨_, h2⟩
        · cases h2
        · exact Or.inl h2
      · rcases getElem?_set_cases hj with ⟨_, h2⟩ | ⟨_, h2⟩
        · cases h2
        · exact Or.inr ⟨c, h2⟩
    rw [h1]
    exact h.fr j g hold b B hB

theorem InvB_acceptStart (y : Sys) (j l k : Nat) (h : InvB y)
    (hpc : y.accepts[j]? = some (.start l)) : InvB (y.step (.accept j k)) := by
  have hinv' := Inv_step y (.accept j k) h.inv
  cases hL : y.st.listenerObjs[l]? with
  | none =>
    have hstep : y.step (.accept j k) = { y with accepts := y.accepts.set j .crashed } := by
      simp only [Sys.step, hpc, acceptStart, hL]
    rw [hstep] at hinv' ⊢
    exact ⟨hinv', h.ab, h.fr⟩
  | some L =>
    have hstep : y.step (.accept j k) =
        { y with
          st :=
            { pipes := y.st.pipes ++ [pipe.fresh],
              conns := y.st.conns ++ [⟨none, some y.st.pipes.length, L.laddr, addr.zero⟩],
              accepterObjs :=
                y.st.accepterObjs ++ [⟨y.st.conns.length, y.st.pipes.length, false⟩],
              listenerObjs := y.st.listenerObjs.set l
                { L with accepters := L.accepters ++ [y.st.accepterObjs.length] },
              listeners := y.st.listeners },
          accepts := y.accepts.set j (.waiting l y.st.accepterObjs.length) } := by
      simp only [Sys.step, hpc, acceptStart_eq y.st l L hL]
    rw [hstep] at hinv' ⊢
    have hnew : ∀ (b : Nat) (B : accepter),
        (y.st.accepterObjs ++ [accepter.mk y.st.conns.length y.st.pipes.length false])[b]? =
          some B →
        (b = y.st.accepterObjs.length ∧ B = ⟨y.st.conns.length, y.st.pipes.length, false⟩) ∨
          (b < y.st.accepterObjs.length ∧ y.st.accepterObjs[b]? = some B) :=
      fun b B hB => getElem?_append_one_cases hB
    refine ⟨hinv', ⟨?_, ?_, ?_⟩, ?_⟩
    · intro b B hB
      simp only [List.length_append, List.length_singleton]
      rcases hnew b B hB with ⟨_, h2⟩ | ⟨_, h2⟩
      · rw [h2]; exact ⟨by simp, by simp⟩
      · have := h.ab.alloc b B h2
        exact ⟨by omega, by omega⟩
    · intro b b' B B' hB hB' hne
      rcases hnew b B hB with ⟨h1, h2⟩ | ⟨_, h2⟩
      · rcases hnew b' B' hB' with ⟨h3, _⟩ | ⟨_, h4⟩
        · exact absurd (h1.trans h3.symm) hne
        · have := (h.ab.alloc b' B' h4).1
          rw [h2]
          simp only
          omega
      · rcases hnew b' B' hB' with ⟨_, h4⟩ | ⟨_, h4⟩
        · have := (h.ab.alloc b B h2).1
          rw [h4]
          simp only
          omega
        · exact h.ab.inj b b' B B' h2 h4 hne
    · intro l' L' b B hL' hb hB
      rcases hnew b B hB with ⟨h1, h2⟩ | ⟨h1, h2⟩
      · -- the accepter just made: it sits in the queue of `l` only
        subst h2
        have hl' : L'.laddr = L.laddr := by
          rcases getElem?_set_cases hL' with ⟨_, h4⟩ | ⟨_, h4⟩
          · rw [h4]
          · exfalso
            obtain ⟨B0, hB0, _, _⟩ := h.inv.qv l' L' b h4 hb
            rw [h1] at hB0
            exact Nat.lt_irrefl _ (getElem?_lt_of_eq_some hB0)
        refine ⟨⟨⟨none, some y.st.pipes.length, L.laddr, addr.zero⟩, by simp, rfl, rfl,
          hl'.symm⟩, pipe.fresh, by simp, rfl, rfl⟩
      · have hold : ∃ L0 : listener, y.st.listenerObjs[l']? = some L0 ∧ b ∈ L0.accepters ∧
            L0.laddr = L'.laddr := by
          rcases getElem?_set_cases hL' with ⟨h3, h4⟩ | ⟨_, h4⟩
          · rw [h4] at hb
            refine ⟨L, by rw [h3]; exact hL, ?_, by rw [h4]⟩
            rcases List.mem_append.mp hb with hb | hb
            · exact hb
            · have := List.mem_singleton.mp hb
              omega
          · exact ⟨L', h4, hb, rfl⟩
        obtain ⟨L0, hL0, hb0, hladdr⟩ := hold
        obtain ⟨⟨AC, h3, h4, h5, h6⟩, P, h7, h8, h9⟩ := h.ab.built l' L0 b B hL0 hb0 h2
        exact ⟨⟨AC, getElem?_append_one_of_some h3, h4, h5, by rw [h6, hladdr]⟩,
          P, getElem?_append_one_of_some h7, h8, h9⟩
    · intro i f hi b B hB
      rcases hnew b B hB with ⟨_, h2⟩ | ⟨_, h2⟩
      · rw [h2]
        simp only
        have hlt : f.conn < y.st.conns.length := by
          rcases hi with hi | ⟨c, hi⟩
          · exact (h.inv.lk i f hi).1
          · exact (h.inv.pp i f c hi).2.1
        omega
      · exact h.fr i f hi b B h2

theorem InvB_step (y : Sys) (act : Act) (h : InvB y) : InvB (y.step act) := by
  cases act with
  | dial i =>
    cases hpc : y.dials[i]? with
    | none =>
      have : y.step (.dial i) = y := by simp only [Sys.step, hpc]
      rw [this]; exact h
    | some pc =>
      cases pc with
      | start address => exact InvB_dialStart y i address h hpc
      | locked f => exact InvB_dialPop y i f h hpc
      | popped f a => exact InvB_dialWire y i f a h hpc
      | returned res =>
        have : y.step (.dial i) = y := by simp only [Sys.step, hpc]
        rw [this]; exact h
      | crashed =>
        have : y.step (.dial i) = y := by simp only [Sys.step, hpc]
        rw [this]; exact h
  | accept j k =>
    cases hpc : y.accepts[j]? with
    | none =>
      have : y.step (.accept j k) = y := by simp only [Sys.step, hpc]
      rw [this]; exact h
    | some pc =>
      cases pc with
      | start l => exact InvB_acceptStart y j l k h hpc
      | waiting l a =>
        have hinv' := Inv_step y (.accept j k) h.inv
        have hstep : y.step (.accept j k) =
            match (acceptSelect y.st l a)[k]? with
            | some res => { y with accepts := y.accepts.set j (.returned res) }
            | none => y := by
          simp only [Sys.step, hpc]
        rw [hstep] at hinv' ⊢
        cases hsel : (acceptSelect y.st l a)[k]? with
        | none => exact h
        | some res =>
          rw [hsel] at hinv'
          exact ⟨hinv', h.ab, h.fr⟩
      | returned res =>
        have : y.step (.accept j k) = y := by simp only [Sys.step, hpc]
        rw [this]; exact h
      | crashed =>
        have : y.step (.accept j k) = y := by simp only [Sys.step, hpc]
        rw [this]; exact h

theorem InvB_run (sched : List Act) (y : Sys) (h : InvB y) : InvB (y.run sched) := by
  induction sched generalizing y with
  | nil => exact h
  | cons act sched ih => exact ih _ (InvB_step y act h)

theorem InvB_of_initial (s : State) (dials : List dialPC) (accepts : List acceptPC)
    (hwf : WFState s) (hab : AcceptBuilt s)
    (hd : ∀ (i : Nat) (pc : dialPC), dials[i]? = some pc → ∃ address, pc = .start address) :
    InvB ⟨s, dials, accepts, [], []⟩ := by
  refine ⟨Inv_of_WFState s dials accepts hwf hd, hab, ?_⟩
  intro i f hi
  rcases hi with hi | ⟨a, hi⟩
  · obtain ⟨_, h1⟩ := hd i _ hi
    cases h1
  · obtain ⟨_, h1⟩ := hd i _ hi
    cases h1

theorem AcceptBuilt_init : AcceptBuilt State.init := by
  refine ⟨?_, ?_, ?_⟩
  · intro a A h
    simp [State.init] at h
  · intro a a' A A' h
    simp [State.init] at h
  · intro l L a A h
    simp [State.init] at h

theorem AcceptBuilt_Listen (s : State) (address : String) (hwf : WFState s)
    (h : AcceptBuilt s) : AcceptBuilt (Listen s address).2 := by
  have hobj : AcceptBuilt { s with
      listenerObjs := s.listenerObjs ++ [listener.mk ⟨network, address⟩ [] false 0] } := by
    refine ⟨h.alloc, h.inj, ?_⟩
    intro l L a A hL ha hA
    rcases getElem?_append_one_cases hL with ⟨_, h2⟩ | ⟨_, h2⟩
    · rw [h2] at ha; cases ha
    · exact h.built l L a A h2 ha hA
  rw [Listen_eq]
  cases mapGet s.listeners ⟨network, address⟩ with
  | some l0 => exact hobj
  | none => exact ⟨hobj.alloc, hobj.inj, hobj.built⟩

theorem AcceptBuilt_acceptStart (s s' : State) (l a : Nat) (hwf : WFState s)
    (h : AcceptBuilt s) (hs : acceptStart s l = .ret a s') : AcceptBuilt s' := by
  have hinv : InvB ⟨s, [], [.start l], [], []⟩ :=
    InvB_of_initial s [] [.start l] hwf h (by intro i pc hi; simp at hi)
  have := (InvB_step _ (.accept 0 0) hinv).ab
  simpa [Sys.step, hs] using this

theorem Dial_eq_run (s s' : State) (address : String) (r : Except error Nat)
    (h : Dial s address = .ret r s') :
    (Sys.run ⟨s, [.start address], [], [], []⟩ [.dial 0, .dial 0, .dial 0]).st = s' := by
  unfold Dial at h
  simp only [Sys.run, List.foldl_cons, List.foldl_nil]
  cases h1 : dialStart s address with
  | mk res s1 =>
    rw [h1] at h
    cases res with
    | error e =>
      simp only [Outcome.ret.injEq] at h
      simp [Sys.step, h1, h.2]
    | ok f =>
      simp only at h
      cases h2 : dialPop s1 f.l with
      | block => rw [h2] at h; cases h
      | panic => rw [h2] at h; cases h
      | ret a s2 =>
        rw [h2] at h
        simp only at h
        cases h3 : dialWire s2 f a with
        | block => rw [h3] at h; cases h
        | panic => rw [h3] at h; cases h
        | ret c s3 =>
          rw [h3] at h
          simp only [Outcome.ret.injEq] at h
          simp [Sys.step, h1, h2, h3, h.2]

theorem AcceptBuilt_Dial (s s' : State) (address : String) (r : Except error Nat)
    (hwf : WFState s) (hab : AcceptBuilt s) (h : Dial s address = .ret r s') :
    WFState s' ∧ AcceptBuilt s' := by
  have hinv : InvB ⟨s, [.start address], [], [], []⟩ :=
    InvB_of_initial s [.start address] [] hwf hab (by
      intro i pc hi
      have := List.getElem?_mem hi
      exact ⟨address, List.mem_singleton.mp this⟩)
  have hrun := InvB_run [.dial 0, .dial 0, .dial 0] _ hinv
  rw [← Dial_eq_run s s' address r h]
  exact ⟨WFState_of_Inv _ hrun.inv, hrun.ab⟩

/-! ## The matched pair of Accept and Dial -/

theorem Dial_pair_of_built (s : State) (address : String) (l a : Nat)
    (L : listener) (A : accepter) (AC : conn) (P : pipe)
    (hreg : mapGet s.listeners ⟨network, address⟩ = some l)
    (hL : s.listenerObjs[l]? = some L)
    (hq : L.accepters.getLast? = some a)
    (hA : s.accepterObjs[a]? = some A) (hdone : A.done = false)
    (hAC : s.conns[A.conn]? = some AC) (hACw : AC.w = some A.reader)
    (hP : s.pipes[A.reader]? = some P) (hPc : P.isClosed = false) (hPw : P.wr = []) :
    ∃ s', Dial s address = .ret (.ok s.conns.length) s' ∧
      s'.pipes[s.pipes.length]? = some pipe.fresh ∧
      s'.accepterObjs[a]? = some { A with done := true } ∧
      acceptSelect s' l a = Except.ok A.conn ::
        (if L.done then [Except.error "use of closed network connection"] else []) ∧
      s'.conns[s.conns.length]? =
        some ⟨some A.reader, some s.pipes.length, ⟨network, address⟩, ⟨network, address⟩⟩ ∧
      s'.conns[A.conn]? =
        some ⟨some s.pipes.length, some A.reader, AC.laddr, ⟨network, address⟩⟩ ∧
      Duplex s.conns.length A.conn s.pipes.length A.reader s' := by
  obtain ⟨s', hD, _, h1, _, h3, h4, h5, h6, h7, h8⟩ :=
    Dial_cross_wired_of_built s address l a L A AC P hreg hL hq hA hdone hAC hACw hP hPc hPw
  have hD' := Dial_eq_of_pending s address l a L A AC hreg hL hq hA hdone hAC
  have hs' := hD.symm.trans hD'
  simp only [Outcome.ret.injEq, true_and] at hs'
  have hl : l < s.listenerObjs.length := getElem?_lt_of_eq_some hL
  have ha : a < s.accepterObjs.length := getElem?_lt_of_eq_some hA
  have hobj : s'.accepterObjs[a]? = some { A with done := true } := by
    rw [hs']
    exact getElem?_set_self_of_lt ha
  have hlis : s'.listenerObjs[l]? = some { L with accepters := L.accepters.dropLast } := by
    rw [hs']
    exact getElem?_set_self_of_lt hl
  refine ⟨s', hD, h1, hobj, ?_, h3, h4, ⟨h5, h6, h7, h8⟩⟩
  unfold acceptSelect
  rw [hlis, hobj]
  simp

theorem acceptStart_spec (s : State) (l : Nat) (L : listener)
    (hL : s.listenerObjs[l]? = some L) :
    ∃ s1 : State, acceptStart s l = .ret s.accepterObjs.length s1 ∧
      s1.listeners = s.listeners ∧
      s1.listenerObjs[l]? =
        some { L with accepters := L.accepters ++ [s.accepterObjs.length] } ∧
      s1.accepterObjs[s.accepterObjs.length]? =
        some ⟨s.conns.length, s.pipes.length, false⟩ ∧
      s1.conns[s.conns.length]? = some ⟨none, some s.pipes.length, L.laddr, addr.zero⟩ ∧
      s1.pipes[s.pipes.length]? = some pipe.fresh ∧
      s1.conns.length = s.conns.length + 1 ∧ s1.pipes.length = s.pipes.length + 1 := by
  have hl : l < s.listenerObjs.length := getElem?_lt_of_eq_some hL
  refine ⟨_, acceptStart_eq s l L hL, rfl, getElem?_set_self_of_lt hl, ?_, ?_, ?_, ?_, ?_⟩
  · simp
  · simp
  · simp
  · simp
  · simp

/-- C1: in a state reached by `Listen`, `Accept` and `Dial` calls (`WFState` and
`AcceptBuilt` hold), a Dial to a registered address is matched with the Accepter pending
last in the queue: the Accepter's `done` channel is closed, so the `select` of its
`Accept` returns the Accepter's conn, and that conn and the conn `Dial` returns are
cross-wired: the dialer writes to the pipe made by `Dial`, which the acceptor reads, and
the acceptor writes to the pipe made by `Accept` (the one whose read end the Accepter
kept), which the dialer reads.  In particular an `Accept` followed by a `Dial` yields
such a pair on the two pipes the two calls allocate.  Bytes flow in order both ways
(`Duplex`): the peer's reads concatenate to the bytes written. -/
theorem matched_pair_cross_wired (s : State) (address : String) (l : Nat) (L : listener)
    (hwf : WFState s) (hab : AcceptBuilt s)
    (hreg : mapGet s.listeners ⟨network, address⟩ = some l)
    (hL : s.listenerObjs[l]? = some L) :
    (∀ a : Nat, L.accepters.getLast? = some a →
      ∃ (A : accepter) (AC : conn) (s' : State),
        s.accepterObjs[a]? = some A ∧ A.done = false ∧
        s.conns[A.conn]? = some AC ∧ AC.r = none ∧ AC.w = some A.reader ∧
        AC.laddr = L.laddr ∧ A.reader < s.pipes.length ∧
        Dial s address = .ret (.ok s.conns.length) s' ∧
        s.pipes[s.pipes.length]? = none ∧
        s'.pipes[s.pipes.length]? = some pipe.fresh ∧
        s'.accepterObjs[a]? = some { A with done := true } ∧
        acceptSelect s' l a = Except.ok A.conn ::
          (if L.done then [Except.error "use of closed network connection"] else []) ∧
        s'.conns[s.conns.length]? =
          some ⟨some A.reader, some s.pipes.length, ⟨network, address⟩, ⟨network, address⟩⟩ ∧
        s'.conns[A.conn]? =
          some ⟨some s.pipes.length, some A.reader, L.laddr, ⟨network, address⟩⟩ ∧
        Duplex s.conns.length A.conn s.pipes.length A.reader s' ∧
        WFState s' ∧ AcceptBuilt s') ∧
    ∃ s1 s2 : State,
      acceptStart s l = .ret s.accepterObjs.length s1 ∧
      s.pipes[s.pipes.length]? = none ∧
      s1.pipes[s.pipes.length]? = some pipe.fresh ∧
      s1.accepterObjs[s.accepterObjs.length]? =
        some ⟨s.conns.length, s.pipes.length, false⟩ ∧
      acceptSelect s1 l s.accepterObjs.length =
        (if L.done then [Except.error "use of closed network connection"] else []) ∧
      Dial s1 address = .ret (.ok (s.conns.length + 1)) s2 ∧
      s2.pipes[s.pipes.length + 1]? = some pipe.fresh ∧
      acceptSelect s2 l s.accepterObjs.length = Except.ok s.conns.length ::
        (if L.done then [Except.error "use of closed network connection"] else []) ∧
      s2.conns[s.conns.length + 1]? =
        some ⟨some s.pipes.length, some (s.pipes.length + 1), ⟨network, address⟩,
          ⟨network, address⟩⟩ ∧
      s2.conns[s.conns.length]? =
        some ⟨some (s.pipes.length + 1), some s.pipes.length, L.laddr, ⟨network, address⟩⟩ ∧
      Duplex (s.conns.length + 1) s.conns.length (s.pipes.length + 1) s.pipes.length s2 := by
  constructor
  · intro a hq
    have haL : a ∈ L.accepters := mem_of_getLast? hq
    obtain ⟨A, hA, hd, _⟩ := hwf.qv l L a hL haL
    obtain ⟨⟨AC, hAC, hACw, hACr, hACl⟩, P, hP, hPc, hPw⟩ := hab.built l L a A hL haL hA
    obtain ⟨s', hD, h1, h2, h3, h4, h5, h6⟩ :=
      Dial_pair_of_built s address l a L A AC P hreg hL hq hA hd hAC hACw hP hPc hPw
    obtain ⟨hwf', hab'⟩ := AcceptBuilt_Dial s s' address _ hwf hab hD
    exact ⟨A, AC, s', hA, hd, hAC, hACr, hACw, hACl, getElem?_lt_of_eq_some hP, hD, by simp,
      h1, h2, h3, h4, by rw [← hACl]; exact h5, h6, hwf', hab'⟩
  · obtain ⟨s1, hacc, hreg1, hL1, hA1, hC1, hP1, hcl, hpl⟩ := acceptStart_spec s l L hL
    obtain ⟨s2, hD, h1, _, h3, h4, h5, h6⟩ :=
      Dial_pair_of_built s1 address l s.accepterObjs.length
        { L with accepters := L.accepters ++ [s.accepterObjs.length] }
        ⟨s.conns.length, s.pipes.length, false⟩
        ⟨none, some s.pipes.length, L.laddr, addr.zero⟩ pipe.fresh
        (by rw [hreg1]; exact hreg) hL1 (by simp) hA1 rfl hC1 rfl hP1 rfl rfl
    rw [hcl] at hD h4 h6
    rw [hpl] at h1 h4 h5 h6
    refine ⟨s1, s2, hacc, by simp, hP1, hA1, ?_, hD, h1, h3, h4, h5, h6⟩
    unfold acceptSelect
    rw [hL1, hA1]
    simp

/-- Witness for C1, the echo of `TestINPROC`: after `Listen(":9999")`, an `Accept`
enqueues accepter 0 and `Dial(":9999")` returns conn 1; the `select` of the `Accept` then
returns conn 0, the two conns are cross-wired on pipes 0 and 1, "Hello World" written by
the dialer is what the acceptor reads into its 1024-byte buffer, and written back by the
acceptor it is what the dialer reads. -/
theorem matched_pair_cross_wired_witness :
    ∃ s1 s2 : State,
      acceptStart (Listen State.init ":9999").2 0 = .ret 0 s1 ∧
      Dial s1 ":9999" = .ret (.ok 1) s2 ∧
      acceptSelect s2 0 0 = [Except.ok 0] ∧
      s2.conns[1]? = some ⟨some 0, some 1, ⟨network, ":9999"⟩, ⟨network, ":9999"⟩⟩ ∧
      s2.conns[0]? = some ⟨some 1, some 0, ⟨network, ":9999"⟩, ⟨network, ":9999"⟩⟩ ∧
      (ioRun 1 0 s2 [IOop.write helloWorld, IOop.read 1024]).delivered = helloWorld ∧
      (ioRun 0 1 s2 [IOop.write helloWorld, IOop.read 1024]).delivered = helloWorld :=
  match matched_pair_cross_wired (Listen State.init ":9999").2 ":9999" 0
      ⟨⟨network, ":9999"⟩, [], false, 0⟩
      (WFState_Listen State.init ":9999" WFState_init)
      (AcceptBuilt_Listen State.init ":9999" WFState_init AcceptBuilt_init)
      (by decide) (by decide) with
  | ⟨_, s1, s2, h1, _, _, _, _, h6, _, h8, h9, h10, h11⟩ =>
    ⟨s1, s2, h1, h6, h8, h9, h10, h11.fwdAll helloWorld [1024] (by decide),
      h11.bwdAll helloWorld [1024] (by decide)⟩

end Inproc
